import Mathlib

/-!
# Verification of the diffy tokenizer and patch formatter

A shallow embedding of the repository's source files
`src/utils/token.rs`, `src/utils/token/groups.rs` and `src/patch/format.rs`,
together with models (from the specification) of the parts of the crate that
those files use but that live elsewhere (the hunk/patch data model, the
classifier, the Myers diff engine and its cleanup pass, and terminal styling).

Text is modelled as a list of characters (`Str`); byte positions into the
UTF-8 encoding are tracked explicitly via `Char.utf8Size`, mirroring how the
Rust code indexes `str` by bytes and checks `is_char_boundary`.
-/

namespace Diffy

/-- UTF-8 text, modelled as its list of characters.  Byte indices used by the
Rust code are recovered through `Char.utf8Size`. -/
abbrev Str := List Char

/-- Number of bytes of the UTF-8 encoding of `l` (Rust `str::len`). -/
def byteLen (l : Str) : Nat := (l.map Char.utf8Size).sum

/-- Rust `str::split_at(e)` restricted to its first component, with `e` a byte
count: the longest prefix whose encoding fits in `e` bytes.  When `e` is a
character boundary this is exactly the prefix of `e` bytes. -/
def takeBytes : Str → Nat → Str
  | [], _ => []
  | c :: rest, e => if c.utf8Size ≤ e then c :: takeBytes rest (e - c.utf8Size) else []

/-- Rust `str::split_at(e)` restricted to its second component (see
`takeBytes`). -/
def dropBytes : Str → Nat → Str
  | [], _ => []
  | c :: rest, e => if c.utf8Size ≤ e then dropBytes rest (e - c.utf8Size) else c :: rest

/-- Rust `str::is_char_boundary`: `e` is a byte position falling between two
encoded characters (or at either end). -/
def isBoundary : Str → Nat → Bool
  | _, 0 => true
  | [], _ + 1 => false
  | c :: rest, e + 1 =>
    if c.utf8Size ≤ e + 1 then isBoundary rest (e + 1 - c.utf8Size) else false

/-- Byte index of the first character satisfying `p` (Rust `str::find` with a
character predicate or a single-character pattern). -/
def findCharByte (p : Char → Bool) : Str → Option Nat
  | [] => none
  | c :: rest => if p c then some 0 else (findCharByte p rest).map (· + c.utf8Size)

/-- `s.ends_with('\n')` from the source. -/
def endsWithNewline (s : Str) : Bool := s.getLast? = some '\n'

/-! ## Grouping rules (`src/utils/token/groups.rs`) -/

/-- The `Grouping` trait of `groups.rs`: a rule has a `start` predicate, a
membership predicate `belongs`, and an `end_` predicate that the final
character of the group must satisfy. -/
structure Grouping where
  start : Char → Bool
  belongs : Char → Bool
  end_ : Char → Bool

/-- Modelled from the spec: the standard library's Unicode `char::is_numeric`
(Unicode `Number` category) is outside the repository; we give its ASCII
fragment, which is exact for every character handled in this development. -/
def isNumericChar (c : Char) : Bool := c.isDigit

/-- Modelled from the spec: ASCII fragment of the standard library's Unicode
`char::is_alphanumeric` (Alphabetic or Number category). -/
def isAlphanumericChar (c : Char) : Bool := c.isAlpha || c.isDigit

/-- Modelled from the spec: ASCII fragment of the standard library's Unicode
`char::is_whitespace` (the `White_Space` property). -/
def isWhitespaceChar (c : Char) : Bool :=
  c = ' ' || c = '\t' || c = '\n' || c = '\r' || c = Char.ofNat 11 || c = Char.ofNat 12

/-- Modelled from the spec: ASCII fragment of the `unicode_categories` crate's
`is_punctuation_connector` (Unicode `Pc` category: underscore and friends). -/
def isConnectorChar (c : Char) : Bool := c = '_'

/-- The `Number` rule: starts on a numeric character, consumes numerics and
`'.'`, and must end on a numeric character. -/
def Number : Grouping :=
  ⟨isNumericChar, fun c => isNumericChar c || c = '.', isNumericChar⟩

/-- The `AlphaNumeric` rule: alphanumerics plus connector punctuation; `start`
and `end` default to the membership predicate. -/
def AlphaNumeric : Grouping :=
  ⟨fun c => isAlphanumericChar c || isConnectorChar c,
   fun c => isAlphanumericChar c || isConnectorChar c,
   fun c => isAlphanumericChar c || isConnectorChar c⟩

/-- The `Whitespace` rule; `start` and `end` default to membership. -/
def Whitespace : Grouping := ⟨isWhitespaceChar, isWhitespaceChar, isWhitespaceChar⟩

/-- The fixed priority order of grouping rules in `GroupIter::new`. -/
def groupRules : List Grouping := [Number, AlphaNumeric, Whitespace]

/-! ## The group boundary closure (`GroupIter::new` in `src/utils/token.rs`) -/

/-- The backward walk of `GroupIter::new`: starting from the byte boundary
`byteLen pre` (where `pre` is the scanned prefix), repeatedly step back one
whole character until one satisfying `g.end_` is found, and return the byte
position just after it (`pos + c.len_utf8()` in the source).  `none` models
the arithmetic underflow of `pos -= 1` at position `0`, which aborts. -/
def backWalkRev (g : Grouping) : Str → Nat → Option Nat
  | [], _ => none
  | c :: rest, p => if g.end_ c then some p else backWalkRev g rest (p - c.utf8Size)

/-- The boundary produced by one grouping rule whose `start` accepted the first
character: scan forward while `belongs` holds, then walk backward to the last
position whose character satisfies `end_`. -/
def ruleBoundary (g : Grouping) (l : Str) : Option Nat :=
  let p := (findCharByte (fun c => ! g.belongs c) l).getD (byteLen l)
  backWalkRev g (takeBytes l p).reverse (byteLen (takeBytes l p))

/-- Try the rules in priority order on first character `c`; when none starts,
emit a single-character group (`Some(c.len_utf8())` in the source).  An inner
`none` models the panic of the backward walk. -/
def firstGroup : List Grouping → Char → Str → Option Nat
  | [], c, _ => some c.utf8Size
  | g :: rest, c, l => if g.start c then ruleBoundary g l else firstGroup rest c l

/-- The closure passed to `TokenIter` by `GroupIter::new`.  Outer `none`
models a panic; `some none` is Rust `None` (empty input); `some (some e)` is
Rust `Some(e)`. -/
def groupF (l : Str) : Option (Option Nat) :=
  match l with
  | [] => some none
  | c :: _ => (firstGroup groupRules c l).map some

/-- The closure passed to `TokenIter` by `LineIter::new`: byte index just
after the first `'\n'`, if any.  The `find` method of the `Text` trait is not
under `src/`; per the spec it locates the first occurrence of `"\n"`. -/
def lineF (l : Str) : Option (Option Nat) :=
  some ((findCharByte (fun c => c = '\n') l).map (· + 1))

/-- `TokenIter::next` iterated to exhaustion (`src/utils/token.rs`): while the
remaining text is nonempty, ask the closure for a boundary (defaulting to the
whole remaining length), split there, emit the front part and continue.  The
`fuel` argument bounds the number of iterations; `none` is returned when the
closure panics or when iteration exceeds the fuel (i.e. fails to make
progress, which the totality lemmas below rule out for `lineF`/`groupF`). -/
def tokenIter (f : Str → Option (Option Nat)) : Nat → Str → Option (List Str)
  | 0, _ => none
  | fuel + 1, l =>
    if l = [] then some [] else
      match f l with
      | none => none
      | some r =>
        let e := r.getD (byteLen l)
        match tokenIter f fuel (dropBytes l e) with
        | none => none
        | some ts => some (takeBytes l e :: ts)

/-- `LineIter` collected to a list. -/
def lineTokens (l : Str) : Option (List Str) := tokenIter lineF (l.length + 1) l

/-- `GroupIter` collected to a list. -/
def groupTokens (l : Str) : Option (List Str) := tokenIter groupF (l.length + 1) l

/-- Helper for `splitInclusive`: prepend a character to the first piece,
starting a fresh piece when there is none. -/
def consHead (c : Char) : List Str → List Str
  | [] => [[c]]
  | p :: ps => (c :: p) :: ps

/-- Rust `str::split_inclusive('\n')`: the pieces of `l` cut just after each
`'\n'`, the last piece kept even without a trailing `'\n'`; the empty string
has no pieces.  This is also the specification's description of line
splitting, used as the reference shape for `lineTokens`. -/
def splitInclusive : Str → List Str
  | [] => []
  | c :: rest =>
    if c = '\n' then ['\n'] :: splitInclusive rest
    else consHead c (splitInclusive rest)

/-! ## The patch data model (used by `src/patch/format.rs`)

The `Line`, `Hunk` and `Patch` types and the `NO_NEWLINE_AT_EOF` constant live
in `src/patch/mod.rs`, which is not under `src/`; they are modelled from the
spec's data-model section. -/

/-- Modelled from the spec: the `Line` variant of `src/patch/mod.rs` —
`Context` / `Delete` / `Insert` over one line of text. -/
inductive Line
  | context (s : Str)
  | delete (s : Str)
  | insert (s : Str)
deriving DecidableEq

/-- Modelled from the spec: a hunk range of `src/patch/mod.rs` — 1-based
starting line number plus line count; its `Display` impl (used by the hunk
header) prints `start,len`. -/
structure HunkRange where
  start : Nat
  len : Nat
deriving DecidableEq

/-- `HunkRange`'s rendition inside the hunk header (`{}` in
`write!(w, "@@ -{} +{} @@", ...)`). -/
def hunkRangeText (r : HunkRange) : Str :=
  (Nat.repr r.start).data ++ [','] ++ (Nat.repr r.len).data

/-- Modelled from the spec: the `Hunk` of `src/patch/mod.rs`: ranges, optional
section label, lines, and the `originals`/`modifieds` block sequences — one
multi-line block per maximal contiguous Delete-run / Insert-run. -/
structure Hunk where
  old_range : HunkRange
  new_range : HunkRange
  function_context : Option Str
  lines : List Line
  originals : List Str
  modifieds : List Str
deriving DecidableEq

/-- Modelled from the spec: the `Patch` of `src/patch/mod.rs`. -/
structure Patch where
  original : Option Str
  modified : Option Str
  hunks : List Hunk
deriving DecidableEq

/-- Modelled from the spec: the literal marker line for a missing trailing
newline (`NO_NEWLINE_AT_EOF` in `src/patch/mod.rs`). -/
def NO_NEWLINE_AT_EOF : Str := "\\ No newline at end of file".data

/-! ## Styled output model

`nu_ansi_term` styling is modelled structurally: rendered output is a list of
chunks, each either plain text or a style prefix/suffix marker (the escape
sequences emitted by `Style::prefix()` / `Style::suffix()`; for the empty
`Style::new()` these are empty).  `paint` wraps a string in its style's
prefix and suffix, exactly as the `ANSIString` display does.  Stripping the
terminal escape sequences from rendered output is dropping the marker chunks,
i.e. `textOf`. -/

/-- The six styles held by `PatchFormatter`. -/
inductive StyleTag
  | context
  | delete
  | insert
  | hunkHeader
  | patchHeader
  | functionContext
deriving DecidableEq

/-- One write to the output sink: plain text, or a style prefix/suffix escape
marker. -/
inductive Chunk
  | text (s : Str)
  | pre (t : StyleTag)
  | suf (t : StyleTag)
deriving DecidableEq

/-- The plain text of rendered output once all terminal escape markers are
stripped. -/
def textOf (cs : List Chunk) : Str :=
  (cs.map fun c => match c with | Chunk.text s => s | _ => []).flatten

/-- `style.paint(s)`: prefix, content, suffix. -/
def paint (t : StyleTag) (s : Str) : List Chunk := [Chunk.pre t, Chunk.text s, Chunk.suf t]

/-! ## `LineDisplay` (`src/patch/format.rs`) -/

/-- `LineDisplay`: sign and style from the variant; a Context line whose text
is exactly `"\n"` is written without the sign; otherwise sign then text; body
wrapped in the style when color is on; then, if the text has no trailing
newline, a line break and the no-newline marker line. -/
def fmtLine (wc : Bool) (ln : Line) : List Chunk :=
  let sign : Char := match ln with | .context _ => ' ' | .delete _ => '-' | .insert _ => '+'
  let s : Str := match ln with | .context s => s | .delete s => s | .insert s => s
  let st : StyleTag :=
    match ln with | .context _ => .context | .delete _ => .delete | .insert _ => .insert
  (if wc then [Chunk.pre st] else [])
    ++ (if sign = ' ' ∧ s = ['\n'] then [Chunk.text s] else [Chunk.text (sign :: s)])
    ++ (if wc then [Chunk.suf st] else [])
    ++ (if endsWithNewline s then [] else [Chunk.text ('\n' :: (NO_NEWLINE_AT_EOF ++ ['\n']))])

/-! ## Hunk header (`HunkDisplay` in `src/patch/format.rs`) -/

/-- The fixed text between the `@@` markers. -/
def headerCore (h : Hunk) : Str :=
  "@@ -".data ++ hunkRangeText h.old_range ++ " +".data ++ hunkRangeText h.new_range
    ++ " @@".data

/-- The hunk header: `@@ -a,b +c,d @@` wrapped in the hunk-header style when
color is on; when a section label is present, a space, then the
function-context style opens, then another space and the label; finally a
newline. -/
def fmtHunkHeader (wc : Bool) (h : Hunk) : List Chunk :=
  (if wc then [Chunk.pre .hunkHeader] else [])
    ++ [Chunk.text (headerCore h)]
    ++ (if wc then [Chunk.suf .hunkHeader] else [])
    ++ (match h.function_context with
        | none => []
        | some ctx =>
          [Chunk.text [' ']]
            ++ (if wc then [Chunk.pre .functionContext] else [])
            ++ [Chunk.text (' ' :: ctx)]
            ++ (if wc then [Chunk.suf .functionContext] else []))
    ++ [Chunk.text ['\n']]

/-! ## The classifier and the sub-diff engine

`Classifier`, `myers::diff` and `cleanup::compact` are not under `src/`; they
are modelled from the spec. -/

/-- Modelled from the spec: interning one token into the classifier table —
equal content always receives the same dense id. -/
def intern (tbl : List Str) (s : Str) : List Str × Nat :=
  match tbl.findIdx? (fun t => t = s) with
  | some i => (tbl, i)
  | none => (tbl ++ [s], tbl.length)

/-- Intern a token sequence, returning the grown table and the id sequence. -/
def internAll (tbl : List Str) : List Str → List Str × List Nat
  | [] => (tbl, [])
  | g :: rest =>
    let r1 := intern tbl g
    let r2 := internAll r1.1 rest
    (r2.1, r1.2 :: r2.2)

/-- Modelled from the spec: `Classifier::classify_groups` — group-tokenize the
text and intern every group, returning the slices, their ids, and the grown
table (the table is threaded through both sides of an intraline comparison).
`groupTokens` is total on every input (see `groupTokens_spec`), so the
default `[]` branch is never taken. -/
def classifyGroups (tbl : List Str) (text : Str) : List Str × List Nat × List Str :=
  let gs := (groupTokens text).getD []
  let r := internAll tbl gs
  (gs, r.2, r.1)

/-- One step of an edit script. -/
inductive Step
  | eq
  | del
  | ins
deriving DecidableEq

/-- Cost of an edit script: number of non-Equal steps. -/
def stepCost (s : List Step) : Nat := (s.filter (fun x => x ≠ Step.eq)).length

/-- Modelled from the spec: the Myers engine (`src/diff/myers.rs`) computes a
shortest edit script between two id sequences, deterministically, preferring
a deletion over an insertion on equally short candidates; with no commonality
it degenerates to all-Delete-then-all-Insert.  This reference recursion has
those properties; the claims below use only its reconstruction invariant
(every old id is consumed by exactly one Equal/Delete step and every new id
by exactly one Equal/Insert step, in order). -/
def editScriptF : Nat → List Nat → List Nat → List Step
  | _, [], bs => bs.map fun _ => Step.ins
  | _, a :: as, [] => (a :: as).map fun _ => Step.del
  | 0, _ :: _, _ :: _ => []
  | fuel + 1, a :: as, b :: bs =>
    if a = b then Step.eq :: editScriptF fuel as bs
    else
      let d := Step.del :: editScriptF fuel as (b :: bs)
      let i := Step.ins :: editScriptF fuel (a :: as) bs
      if stepCost d ≤ stepCost i then d else i

/-- The edit script with enough fuel for the recursion to complete (each
recursive call strictly shrinks the combined length). -/
def editScript (as bs : List Nat) : List Step := editScriptF (as.length + bs.length) as bs

/-- A half-open index range into one side (`Range<[u64]>` of `src/range.rs`,
not under `src/`): offset and length.  The formatter only reads `len`. -/
structure Range where
  start : Nat
  len : Nat
deriving DecidableEq

/-- `DiffRange` over id sequences (`src/range.rs`, modelled from the spec):
`Equal` carries ranges into both sides, `Delete` into the old side, `Insert`
into the new side. -/
inductive DiffRange
  | equal (a b : Range)
  | delete (a : Range)
  | insert (b : Range)
deriving DecidableEq

/-- Edit steps converted to unit-length `DiffRange`s with running positions. -/
def stepsToRanges : List Step → Nat → Nat → List DiffRange
  | [], _, _ => []
  | Step.eq :: rest, i, j => .equal ⟨i, 1⟩ ⟨j, 1⟩ :: stepsToRanges rest (i + 1) (j + 1)
  | Step.del :: rest, i, j => .delete ⟨i, 1⟩ :: stepsToRanges rest (i + 1) j
  | Step.ins :: rest, i, j => .insert ⟨j, 1⟩ :: stepsToRanges rest i (j + 1)

/-- Merge two adjacent ranges of the same variant, when contiguous. -/
def mergeDR : DiffRange → DiffRange → Option DiffRange
  | .equal a b, .equal a' b' =>
    if a.start + a.len = a'.start ∧ b.start + b.len = b'.start then
      some (.equal ⟨a.start, a.len + a'.len⟩ ⟨b.start, b.len + b'.len⟩)
    else none
  | .delete a, .delete a' =>
    if a.start + a.len = a'.start then some (.delete ⟨a.start, a.len + a'.len⟩) else none
  | .insert b, .insert b' =>
    if b.start + b.len = b'.start then some (.insert ⟨b.start, b.len + b'.len⟩) else none
  | _, _ => none

/-- Modelled from the spec: `cleanup::compact` (`src/diff/cleanup.rs`) merges
consecutive ranges of the same variant into maximal ranges; the spec's
boundary-shifting normalization moves range boundaries only between adjacent
Equal and change ranges and is not observable by any claim settled here. -/
def compactF : Nat → List DiffRange → List DiffRange
  | _, [] => []
  | _, [x] => [x]
  | 0, x :: y :: rest => x :: y :: rest
  | fuel + 1, x :: y :: rest =>
    match mergeDR x y with
    | some z => compactF fuel (z :: rest)
    | none => x :: compactF fuel (y :: rest)

/-- Compaction with enough fuel for the recursion to complete (each recursive
call strictly shrinks the list). -/
def compact (l : List DiffRange) : List DiffRange := compactF l.length l

/-- The solution computed per change run in `HunkDisplay::fmt`:
`myers::diff` then `cleanup::compact`. -/
def subdiff (dIds iIds : List Nat) : List DiffRange :=
  compact (stepsToRanges (editScript dIds iIds) 0 0)

/-- Number of Equal-or-Delete steps of an edit script: the number of old-side
elements it consumes. -/
def countA : List Step → Nat
  | [] => 0
  | Step.eq :: r => 1 + countA r
  | Step.del :: r => 1 + countA r
  | Step.ins :: r => countA r

/-- Number of Equal-or-Insert steps: new-side elements consumed. -/
def countB : List Step → Nat
  | [] => 0
  | Step.eq :: r => 1 + countB r
  | Step.ins :: r => 1 + countB r
  | Step.del :: r => countB r

/-- Total length of the old-side ranges (Equal and Delete) of a solution. -/
def aLens : List DiffRange → Nat
  | [] => 0
  | .equal a _ :: rest => a.len + aLens rest
  | .delete a :: rest => a.len + aLens rest
  | .insert _ :: rest => aLens rest

/-- Total length of the new-side ranges (Equal and Insert) of a solution. -/
def bLens : List DiffRange → Nat
  | [] => 0
  | .equal _ b :: rest => b.len + bLens rest
  | .delete _ :: rest => bLens rest
  | .insert b :: rest => b.len + bLens rest

/-! ## The intraline render closure (`render` in `HunkDisplay::fmt`) -/

/-- The styled `-` marker written at the start of each physical deleted
line (`self.f.delete.paint("-")`). -/
def markerDel : List Chunk := paint .delete ['-']

/-- The styled `+` marker for inserted lines (`self.f.insert.paint("+")`). -/
def markerIns : List Chunk := paint .insert ['+']

/-- The fragment loop of the `render` closure: for each fragment, write the
line-start marker if the start-of-physical-line flag is set, re-arm the flag
exactly when the fragment ends with a newline, and write the painted
fragment.  Returns the chunks and the final flag. -/
def renderFrags (ls : List Chunk) (pf : Str → List Chunk) :
    Bool → List Str → List Chunk × Bool
  | sl, [] => ([], sl)
  | sl, g :: gs =>
    let head := (if sl then ls else []) ++ pf g
    let r := renderFrags ls pf (endsWithNewline g) gs
    (head ++ r.1, r.2)

/-- The fragments of a group list: each group split inclusively at `'\n'`. -/
def fragsOf (gs : List Str) : List Str := (gs.map splitInclusive).flatten

/-- The `render` closure applied to one range: the groups
`groups[idx..idx+len]`, each split at newlines, fed to the fragment loop. -/
def renderRange (groups : List Str) (idx : Nat) (sl : Bool) (rlen : Nat)
    (ls : List Chunk) (pf : Str → List Chunk) : List Chunk × Bool :=
  renderFrags ls pf sl (fragsOf ((groups.drop idx).take rlen))

/-- The deleted-side pass over the solution: Equal ranges are rendered with
the identity painter (unstyled), Delete ranges with the delete style, Insert
ranges are skipped; the group index and the start-of-line flag are threaded
through. -/
def deleteSideGo (groups : List Str) : List DiffRange → Nat → Bool → List Chunk
  | [], _, _ => []
  | .equal a _ :: rest, idx, sl =>
    let r := renderRange groups idx sl a.len markerDel (fun s => [Chunk.text s])
    r.1 ++ deleteSideGo groups rest (idx + a.len) r.2
  | .delete a :: rest, idx, sl =>
    let r := renderRange groups idx sl a.len markerDel (fun s => paint .delete s)
    r.1 ++ deleteSideGo groups rest (idx + a.len) r.2
  | .insert _ :: rest, idx, sl => deleteSideGo groups rest idx sl

/-- The inserted-side pass: Equal unstyled, Insert styled, Delete skipped. -/
def insertSideGo (groups : List Str) : List DiffRange → Nat → Bool → List Chunk
  | [], _, _ => []
  | .equal _ b :: rest, idx, sl =>
    let r := renderRange groups idx sl b.len markerIns (fun s => [Chunk.text s])
    r.1 ++ insertSideGo groups rest (idx + b.len) r.2
  | .insert b :: rest, idx, sl =>
    let r := renderRange groups idx sl b.len markerIns (fun s => paint .insert s)
    r.1 ++ insertSideGo groups rest (idx + b.len) r.2
  | .delete _ :: rest, idx, sl => insertSideGo groups rest idx sl

/-- The intraline rendering of one change run: classify both captured blocks
with a shared classifier, sub-diff the id sequences, then render the deleted
side followed by the inserted side. -/
def renderSub (o m : Str) : List Chunk :=
  let dc := classifyGroups [] o
  let ic := classifyGroups dc.2.2 m
  let sol := subdiff dc.2.1 ic.2.1
  deleteSideGo dc.1 sol 0 true ++ insertSideGo ic.1 sol 0 true

/-- The panic message of `original.next().expect(..)`. -/
def expectedDeletedMsg : Str := "expected to find a deleted string".data

/-- The panic message of `modified.next().expect(..)`. -/
def expectedInsertedMsg : Str := "expected to find an inserted string".data

/-- The line loop of `HunkDisplay::fmt`: without color every line goes
through `LineDisplay`; with color, Context lines re-arm the `is_context`
flag and print normally, while the first change line of a run consumes the
next `originals`/`modifieds` blocks (aborting with the `expect` messages when
exhausted) and renders the whole run's intraline diff; subsequent change
lines of the run are skipped.  The `Except` error models the Rust panic. -/
def renderHunkLines (wc : Bool) : List Line → Bool → List Str → List Str →
    Except Str (List Chunk)
  | [], _, _, _ => .ok []
  | ln :: rest, isCtx, origs, mods =>
    if !wc then
      Except.map (fun cs => fmtLine wc ln ++ cs) (renderHunkLines wc rest isCtx origs mods)
    else
      match ln with
      | .context _ =>
        Except.map (fun cs => fmtLine wc ln ++ cs) (renderHunkLines wc rest true origs mods)
      | _ =>
        if isCtx then
          match origs with
          | [] => .error expectedDeletedMsg
          | o :: os =>
            match mods with
            | [] => .error expectedInsertedMsg
            | m :: ms =>
              Except.map (fun cs => renderSub o m ++ cs)
                (renderHunkLines wc rest false os ms)
        else renderHunkLines wc rest false origs mods

/-- `HunkDisplay`: header then the line loop. -/
def renderHunk (wc : Bool) (h : Hunk) : Except Str (List Chunk) :=
  Except.map (fun cs => fmtHunkHeader wc h ++ cs)
    (renderHunkLines wc h.lines true h.originals h.modifieds)

/-- All hunks of a patch in order; a panic in any hunk aborts the render. -/
def renderHunks (wc : Bool) : List Hunk → Except Str (List Chunk)
  | [] => .ok []
  | h :: rest =>
    match renderHunk wc h with
    | .error e => .error e
    | .ok cs => Except.map (fun cs' => cs ++ cs') (renderHunks wc rest)

/-- `PatchDisplay`: the `--- ` / `+++ ` label lines (wrapped in the
patch-header style when color is on) when either label is present, then the
hunks. -/
def renderPatch (wc : Bool) (p : Patch) : Except Str (List Chunk) :=
  let hdr :=
    if p.original.isSome || p.modified.isSome then
      (if wc then [Chunk.pre .patchHeader] else [])
        ++ (match p.original with
            | some o => [Chunk.text ("--- ".data ++ o ++ ['\n'])]
            | none => [])
        ++ (match p.modified with
            | some m => [Chunk.text ("+++ ".data ++ m ++ ['\n'])]
            | none => [])
        ++ (if wc then [Chunk.suf .patchHeader] else [])
    else []
  Except.map (fun cs => hdr ++ cs) (renderHunks wc p.hunks)

/-! ## Reference (spec-side) definitions used to state the claims -/

/-- Plain-mode rendition of a line list: every line through `LineDisplay`,
no intraline machinery at all. -/
def renderLinesPlain (lines : List Line) : List Chunk :=
  (lines.map (fmtLine false)).flatten

/-- Plain-mode rendition of a hunk. -/
def renderHunkPlain (h : Hunk) : List Chunk :=
  fmtHunkHeader false h ++ renderLinesPlain h.lines

/-- Plain-mode rendition of a patch. -/
def renderPatchPlain (p : Patch) : List Chunk :=
  (if p.original.isSome || p.modified.isSome then
    (match p.original with
      | some o => [Chunk.text ("--- ".data ++ o ++ ['\n'])]
      | none => [])
      ++ (match p.modified with
          | some m => [Chunk.text ("+++ ".data ++ m ++ ['\n'])]
          | none => [])
  else [])
    ++ (p.hunks.map renderHunkPlain).flatten

/-- Marker insertion, the reference shape for the start-of-line flag: `m` is
emitted before the first character when the flag is armed and after every
newline that is followed by another character — i.e. exactly once at the
start of each physical output line. -/
def markText (m : Str) : Bool → Str → Str
  | _, [] => []
  | sl, c :: rest => (if sl then m else []) ++ c :: markText m (c == '\n') rest

/-- The start-of-line flag after a fragment list has been rendered. -/
def flagAfter : Bool → List Str → Bool
  | sl, [] => sl
  | _, g :: gs => flagAfter (endsWithNewline g) gs

/-- The start-of-line flag after the characters of `s` have been written:
unchanged by empty output, otherwise armed exactly when `s` ends with a
newline. -/
def armAfter (sl : Bool) (s : Str) : Bool :=
  match s with
  | [] => sl
  | _ => endsWithNewline s

/-- Style nesting depth after a chunk list. -/
def depthAfter : List Chunk → Nat → Nat
  | [], d => d
  | Chunk.pre _ :: rest, d => depthAfter rest (d + 1)
  | Chunk.suf _ :: rest, d => depthAfter rest (d - 1)
  | Chunk.text _ :: rest, d => depthAfter rest d

/-- Fragment-level marker insertion (one marker before each fragment that
begins a physical line). -/
def markFrags (m : Str) : Bool → List Str → Str
  | _, [] => []
  | sl, g :: gs => (if sl then m else []) ++ g ++ markFrags m (endsWithNewline g) gs

/-- The text of the chunks that lie outside any style prefix/suffix pair
(depth-counting; the whole render emits balanced markers). -/
def unstyledTextOf : List Chunk → Nat → Str
  | [], _ => []
  | Chunk.pre _ :: rest, d => unstyledTextOf rest (d + 1)
  | Chunk.suf _ :: rest, d => unstyledTextOf rest (d - 1)
  | Chunk.text s :: rest, d => (if d = 0 then s else []) ++ unstyledTextOf rest d

/-- The concatenated group content of the Equal ranges of a solution when the
old-side ranges are consumed consecutively from `idx` (the deleted-side pass
order). -/
def equalAText (groups : List Str) : List DiffRange → Nat → Str
  | [], _ => []
  | .equal a _ :: rest, idx =>
    ((groups.drop idx).take a.len).flatten ++ equalAText groups rest (idx + a.len)
  | .delete a :: rest, idx => equalAText groups rest (idx + a.len)
  | .insert _ :: rest, idx => equalAText groups rest idx

/-- Equal-range content on the new side (the inserted-side pass order). -/
def equalBText (groups : List Str) : List DiffRange → Nat → Str
  | [], _ => []
  | .equal _ b :: rest, idx =>
    ((groups.drop idx).take b.len).flatten ++ equalBText groups rest (idx + b.len)
  | .insert b :: rest, idx => equalBText groups rest (idx + b.len)
  | .delete _ :: rest, idx => equalBText groups rest idx

/-- Number of maximal runs of change (non-Context) lines, the number of
originals/modifieds blocks the colored line loop consumes. -/
def changeRuns : List Line → Bool → Nat
  | [], _ => 0
  | .context _ :: rest, _ => changeRuns rest true
  | .delete _ :: rest, isCtx => (if isCtx then 1 else 0) + changeRuns rest false
  | .insert _ :: rest, isCtx => (if isCtx then 1 else 0) + changeRuns rest false

/-! ## Hunk shapes for the color/plain agreement claim -/

/-- A line, as produced by line tokenization: nonempty, ending in its only
newline. -/
def properLine : Str → Bool
  | [] => false
  | [c] => c == '\n'
  | c :: rest => !(c == '\n') && properLine rest

/-- A structural segment of a hunk: a run of context lines, or a pure replace
block — a Delete-run immediately followed by an Insert-run. -/
inductive Seg
  | ctx (ls : List Str)
  | rep (dels inss : List Str)

/-- The lines contributed by a segment. -/
def segLines : Seg → List Line
  | .ctx ls => ls.map Line.context
  | .rep ds is => ds.map Line.delete ++ is.map Line.insert

/-- The lines of a segment list. -/
def segsLines (ss : List Seg) : List Line := (ss.map segLines).flatten

/-- The captured `originals` blocks: one concatenated block per Delete-run. -/
def segsOrigs (ss : List Seg) : List Str :=
  ss.filterMap fun s => match s with | .rep ds _ => some ds.flatten | _ => none

/-- The captured `modifieds` blocks: one concatenated block per Insert-run. -/
def segsMods (ss : List Seg) : List Str :=
  ss.filterMap fun s => match s with | .rep _ is => some is.flatten | _ => none

/-- A well-formed segment: context runs are nonempty; replace blocks have
nonempty sides consisting of proper newline-terminated lines. -/
def segOk : Seg → Bool
  | .ctx ls => !ls.isEmpty
  | .rep ds is => !ds.isEmpty && !is.isEmpty && (ds ++ is).all properLine

/-- A well-formed segment list: every segment well-formed and no two replace
blocks adjacent (adjacent replace blocks would form a single change run with
two captured blocks, which the formatter does not pair up). -/
def segsWF : List Seg → Bool
  | [] => true
  | [s] => segOk s
  | s :: s' :: rest =>
    segOk s
      && (match s, s' with | .rep _ _, .rep _ _ => false | _, _ => true)
      && segsWF (s' :: rest)

/-- Whether a segment list begins with a replace block. -/
def repHead : List Seg → Bool
  | Seg.rep _ _ :: _ => true
  | _ => false

/-- A hunk described structurally: header data plus segments. -/
structure HunkShape where
  oldr : HunkRange
  newr : HunkRange
  fctx : Option Str
  segs : List Seg

/-- The hunk of a `HunkShape`, with `lines`/`originals`/`modifieds` assembled
as the spec's hunk-assembly captures them. -/
def shapeHunk (hs : HunkShape) : Hunk :=
  ⟨hs.oldr, hs.newr, hs.fctx, segsLines hs.segs, segsOrigs hs.segs, segsMods hs.segs⟩

/-! ## Basic lemmas about the byte-level string model -/

theorem byteLen_nil : byteLen [] = 0 := rfl

theorem byteLen_cons (c : Char) (l : Str) : byteLen (c :: l) = c.utf8Size + byteLen l := by
  simp [byteLen]

theorem byteLen_append (x y : Str) : byteLen (x ++ y) = byteLen x + byteLen y := by
  simp [byteLen]

theorem byteLen_pos {l : Str} (h : l ≠ []) : 1 ≤ byteLen l := by
  cases l with
  | nil => exact absurd rfl h
  | cons c rest =>
    have := Char.utf8Size_pos c
    rw [byteLen_cons]
    omega

theorem takeBytes_append_dropBytes (l : Str) (e : Nat) :
    takeBytes l e ++ dropBytes l e = l := by
  induction l generalizing e with
  | nil => simp [takeBytes, dropBytes]
  | cons c rest ih =>
    by_cases h : c.utf8Size ≤ e
    · simp [takeBytes, dropBytes, h, ih]
    · simp [takeBytes, dropBytes, h]

theorem takeBytes_zero (l : Str) : takeBytes l 0 = [] := by
  cases l with
  | nil => rfl
  | cons c rest =>
    have := Char.utf8Size_pos c
    simp [takeBytes]
    omega

theorem dropBytes_zero (l : Str) : dropBytes l 0 = l := by
  cases l with
  | nil => rfl
  | cons c rest =>
    have := Char.utf8Size_pos c
    simp [dropBytes]
    omega

theorem takeBytes_append (x y : Str) (e : Nat) :
    takeBytes (x ++ y) (byteLen x + e) = x ++ takeBytes y e := by
  induction x with
  | nil => simp [byteLen_nil]
  | cons c rest ih =>
    show takeBytes (c :: (rest ++ y)) (byteLen (c :: rest) + e) = c :: (rest ++ takeBytes y e)
    rw [byteLen_cons, takeBytes, if_pos (by omega)]
    congr 1
    have h3 : c.utf8Size + byteLen rest + e - c.utf8Size = byteLen rest + e := by omega
    rw [h3, ih]

theorem dropBytes_append (x y : Str) (e : Nat) :
    dropBytes (x ++ y) (byteLen x + e) = dropBytes y e := by
  induction x with
  | nil => simp [byteLen_nil]
  | cons c rest ih =>
    show dropBytes (c :: (rest ++ y)) (byteLen (c :: rest) + e) = dropBytes y e
    rw [byteLen_cons, dropBytes, if_pos (by omega)]
    have h3 : c.utf8Size + byteLen rest + e - c.utf8Size = byteLen rest + e := by omega
    rw [h3, ih]

theorem takeBytes_byteLen (l : Str) : takeBytes l (byteLen l) = l := by
  have := takeBytes_append l [] 0
  simpa [takeBytes] using this

theorem dropBytes_byteLen (l : Str) : dropBytes l (byteLen l) = [] := by
  have := dropBytes_append l [] 0
  simpa [dropBytes] using this

theorem dropBytes_length_le (l : Str) (e : Nat) : (dropBytes l e).length ≤ l.length := by
  induction l generalizing e with
  | nil => simp [dropBytes]
  | cons c rest ih =>
    by_cases h : c.utf8Size ≤ e
    · simp only [dropBytes, h, if_pos]
      exact Nat.le_trans (ih _) (by simp)
    · simp [dropBytes, h]

theorem isBoundary_append (x y : Str) : isBoundary (x ++ y) (byteLen x) = true := by
  induction x with
  | nil => simp [byteLen_nil, isBoundary]
  | cons c rest ih =>
    have hc := Char.utf8Size_pos c
    rw [byteLen_cons]
    have hpos : 1 ≤ c.utf8Size + byteLen rest := by omega
    obtain ⟨e, he⟩ : ∃ e, c.utf8Size + byteLen rest = e + 1 := ⟨c.utf8Size + byteLen rest - 1, by omega⟩
    rw [he]
    have h : c.utf8Size ≤ e + 1 := by omega
    simp only [List.cons_append, isBoundary, h, if_pos]
    have : e + 1 - c.utf8Size = byteLen rest := by omega
    rw [this]
    exact ih

theorem dropBytes_length_lt {l : Str} {e : Nat} (hl : l ≠ []) (he : 1 ≤ e)
    (hb : isBoundary l e = true) : (dropBytes l e).length < l.length := by
  cases l with
  | nil => exact absurd rfl hl
  | cons c rest =>
    obtain ⟨e', rfl⟩ : ∃ e', e = e' + 1 := ⟨e - 1, by omega⟩
    by_cases h : c.utf8Size ≤ e' + 1
    · simp only [dropBytes, h, if_pos]
      exact Nat.lt_succ_of_le (dropBytes_length_le _ _)
    · simp [isBoundary, h] at hb

/-! ## Lemmas about `findCharByte` -/

theorem findCharByte_some {p : Char → Bool} {l : Str} {i : Nat}
    (h : findCharByte p l = some i) :
    ∃ x c y, l = x ++ c :: y ∧ p c = true ∧ (∀ d ∈ x, p d = false) ∧ i = byteLen x := by
  induction l generalizing i with
  | nil => simp [findCharByte] at h
  | cons c rest ih =>
    by_cases hc : p c
    · refine ⟨[], c, rest, by simp, hc, by simp, ?_⟩
      simp [findCharByte, hc] at h
      simp [byteLen_nil, h.symm]
    · simp only [findCharByte, hc, if_neg, Bool.false_eq_true, not_false_iff, Option.map_eq_some'] at h
      obtain ⟨j, hj, rfl⟩ := h
      obtain ⟨x, d, y, rfl, hd, hx, rfl⟩ := ih hj
      exact ⟨c :: x, d, y, rfl, hd, by simpa [hc] using hx, by simp [byteLen_cons, Nat.add_comm]⟩

theorem findCharByte_none {p : Char → Bool} {l : Str}
    (h : findCharByte p l = none) : ∀ d ∈ l, p d = false := by
  induction l with
  | nil => simp
  | cons c rest ih =>
    by_cases hc : p c
    · simp [findCharByte, hc] at h
    · rw [findCharByte, if_neg hc, Option.map_eq_none'] at h
      intro d hd
      rcases List.mem_cons.mp hd with hd | hd
      · subst hd
        exact Bool.eq_false_iff.mpr hc
      · exact ih h d hd

/-! ## Line tokenization agrees with `splitInclusive` -/

theorem splitInclusive_eq_nil {l : Str} (h : splitInclusive l = []) : l = [] := by
  cases l with
  | nil => rfl
  | cons c r =>
    by_cases hc : c = '\n'
    · simp [splitInclusive, hc] at h
    · rw [splitInclusive, if_neg hc] at h
      cases hs : splitInclusive r <;> simp [consHead, hs] at h

theorem splitInclusive_no_newline {l : Str} (hl : l ≠ []) (h : ∀ d ∈ l, d ≠ '\n') :
    splitInclusive l = [l] := by
  induction l with
  | nil => exact absurd rfl hl
  | cons c rest ih =>
    have hc : c ≠ '\n' := h c (by simp)
    by_cases hr : rest = []
    · subst hr; simp [splitInclusive, hc, consHead]
    · have := ih hr (fun d hd => h d (by simp [hd]))
      rw [splitInclusive, if_neg hc, this, consHead]

theorem splitInclusive_newline (x y : Str) (h : ∀ d ∈ x, d ≠ '\n') :
    splitInclusive (x ++ '\n' :: y) = (x ++ ['\n']) :: splitInclusive y := by
  induction x with
  | nil => simp [splitInclusive]
  | cons c rest ih =>
    have hc : c ≠ '\n' := h c (by simp)
    have hrec := ih (fun d hd => h d (by simp [hd]))
    show splitInclusive (c :: (rest ++ '\n' :: y)) = (c :: (rest ++ ['\n'])) :: splitInclusive y
    rw [splitInclusive, if_neg hc, hrec, consHead]

theorem splitInclusive_flatten (l : Str) : (splitInclusive l).flatten = l := by
  induction l with
  | nil => rfl
  | cons c rest ih =>
    by_cases hc : c = '\n'
    · simp [splitInclusive, hc, ih]
    · rw [splitInclusive, if_neg hc]
      cases hsp : splitInclusive rest with
      | nil =>
        have : rest = [] := splitInclusive_eq_nil hsp
        simp [this, consHead]
      | cons p ps =>
        have hfl : (p :: ps).flatten = rest := by rw [← hsp]; exact ih
        rw [consHead]
        simp only [List.flatten_cons] at hfl ⊢
        simp [← hfl]

theorem tokenIter_lineF (fuel : Nat) (l : Str) (h : l.length < fuel) :
    tokenIter lineF fuel l = some (splitInclusive l) := by
  induction fuel generalizing l with
  | zero => omega
  | succ f ih =>
    by_cases hl : l = []
    · subst hl; simp [tokenIter, splitInclusive]
    · rw [tokenIter, if_neg hl]
      cases hf : findCharByte (fun c => c = '\n') l with
      | some i =>
        obtain ⟨x, c, y, rfl, hc, hx, rfl⟩ := findCharByte_some hf
        have hc' : c = '\n' := by simpa using hc
        subst hc'
        have hxnl : ∀ d ∈ x, d ≠ '\n' := by
          intro d hd heq
          have := hx d hd
          simp [heq] at this
        have hylen : y.length < f := by
          have : (x ++ '\n' :: y).length = x.length + 1 + y.length := by simp; omega
          omega
        have htake : takeBytes (x ++ '\n' :: y) (byteLen x + 1) = x ++ ['\n'] := by
          have : x ++ '\n' :: y = (x ++ ['\n']) ++ y := by simp
          rw [this]
          have hbl : byteLen (x ++ ['\n']) = byteLen x + 1 := by
            rw [byteLen_append]; rfl
          rw [← hbl]
          have := takeBytes_append (x ++ ['\n']) y 0
          simpa [takeBytes_zero] using this
        have hdrop : dropBytes (x ++ '\n' :: y) (byteLen x + 1) = y := by
          have : x ++ '\n' :: y = (x ++ ['\n']) ++ y := by simp
          rw [this]
          have hbl : byteLen (x ++ ['\n']) = byteLen x + 1 := by
            rw [byteLen_append]; rfl
          rw [← hbl]
          have := dropBytes_append (x ++ ['\n']) y 0
          simpa [dropBytes_zero] using this
        simp only [lineF, hf, Option.map_some', Option.getD_some, htake, hdrop,
          ih y hylen, splitInclusive_newline x y hxnl]
      | none =>
        have hnl : ∀ d ∈ l, d ≠ '\n' := by
          intro d hd heq
          have := findCharByte_none hf d hd
          simp [heq] at this
        have h1 : 1 ≤ l.length := by
          cases l with
          | nil => exact absurd rfl hl
          | cons _ _ => simp
        have hf1 : tokenIter lineF f [] = some [] := by
          cases f with
          | zero => omega
          | succ f' => simp [tokenIter]
        simp only [lineF, hf, Option.map_none', Option.getD_none, takeBytes_byteLen,
          dropBytes_byteLen, hf1, splitInclusive_no_newline hl hnl]

theorem lineTokens_eq (l : Str) : lineTokens l = some (splitInclusive l) :=
  tokenIter_lineF _ _ (Nat.lt_succ_self _)

/-! ## Totality and soundness of the group boundary -/

theorem byteLen_snoc_sub (ys : Str) (y : Char) :
    byteLen (ys ++ [y]) - y.utf8Size = byteLen ys := by
  rw [byteLen_append]
  have : byteLen [y] = y.utf8Size := by simp [byteLen]
  omega

theorem backWalkRev_isSome (g : Grouping) (pre : Str)
    (h : ∃ c ∈ pre, g.end_ c = true) :
    (backWalkRev g pre.reverse (byteLen pre)).isSome = true := by
  induction pre using List.reverseRecOn with
  | nil => simp at h
  | append_singleton ys y ih =>
    rw [List.reverse_append, List.reverse_singleton, List.singleton_append, backWalkRev]
    by_cases hy : g.end_ y = true
    · rw [if_pos hy]; rfl
    · rw [if_neg hy, byteLen_snoc_sub]
      obtain ⟨c, hc, hce⟩ := h
      rw [List.mem_append] at hc
      have hcys : c ∈ ys := by
        rcases hc with hc | hc
        · exact hc
        · simp only [List.mem_singleton] at hc
          subst hc
          exact absurd hce hy
      exact ih ⟨c, hcys, hce⟩

theorem backWalkRev_spec (g : Grouping) (pre : Str) :
    ∀ e, backWalkRev g pre.reverse (byteLen pre) = some e →
    ∃ pre₁ pre₂, pre = pre₁ ++ pre₂ ∧ pre₁ ≠ [] ∧ e = byteLen pre₁ := by
  induction pre using List.reverseRecOn with
  | nil => intro e h; simp [backWalkRev] at h
  | append_singleton ys y ih =>
    intro e h
    rw [List.reverse_append, List.reverse_singleton, List.singleton_append,
      backWalkRev] at h
    by_cases hy : g.end_ y = true
    · rw [if_pos hy, Option.some.injEq] at h
      exact ⟨ys ++ [y], [], by simp, by simp, h.symm⟩
    · rw [if_neg hy, byteLen_snoc_sub] at h
      obtain ⟨p₁, p₂, hp, hne, he⟩ := ih e h
      exact ⟨p₁, p₂ ++ [y], by simp [hp], hne, he⟩

theorem ruleBoundary_spec (g : Grouping) (c : Char) (rest : Str)
    (hb : g.belongs c = true) (he : g.end_ c = true) :
    ∃ e, ruleBoundary g (c :: rest) = some e ∧ 1 ≤ e ∧
      isBoundary (c :: rest) e = true := by
  have hple : c.utf8Size ≤
      (findCharByte (fun d => ! g.belongs d) (c :: rest)).getD (byteLen (c :: rest)) := by
    cases hfc : findCharByte (fun d => ! g.belongs d) (c :: rest) with
    | some i =>
      obtain ⟨x, d, y, hxy, hd, hx, rfl⟩ := findCharByte_some hfc
      cases x with
      | nil =>
        rw [List.nil_append] at hxy
        have hdc : d = c := by injection hxy with h1 _; exact h1.symm
        subst hdc
        rw [hb] at hd
        simp at hd
      | cons c' x' =>
        have hcc : c' = c := by
          rw [List.cons_append] at hxy
          injection hxy with h1 _; exact h1.symm
        simp only [Option.getD_some, byteLen_cons, hcc]
        omega
    | none =>
      have := Char.utf8Size_pos c
      simp only [Option.getD_none, byteLen_cons]
      omega
  set p := (findCharByte (fun d => ! g.belongs d) (c :: rest)).getD (byteLen (c :: rest))
    with hpdef
  have hpre : takeBytes (c :: rest) p = c :: takeBytes rest (p - c.utf8Size) := by
    rw [takeBytes, if_pos hple]
  have hcmem : c ∈ takeBytes (c :: rest) p := by rw [hpre]; simp
  have hsome := backWalkRev_isSome g (takeBytes (c :: rest) p) ⟨c, hcmem, he⟩
  obtain ⟨e, hev⟩ := Option.isSome_iff_exists.mp hsome
  obtain ⟨p₁, p₂, hsplit, hne, hee⟩ := backWalkRev_spec g (takeBytes (c :: rest) p) e hev
  refine ⟨e, ?_, ?_, ?_⟩
  · rw [ruleBoundary]
    exact hev
  · rw [hee]; exact byteLen_pos hne
  · have hdecomp : c :: rest = p₁ ++ (p₂ ++ dropBytes (c :: rest) p) := by
      conv_lhs => rw [← takeBytes_append_dropBytes (c :: rest) p]
      rw [hsplit]
      simp
    rw [hdecomp, hee]
    exact isBoundary_append _ _

theorem firstGroup_spec (c : Char) (rest : Str) :
    ∃ e, firstGroup groupRules c (c :: rest) = some e ∧ 1 ≤ e ∧
      isBoundary (c :: rest) e = true := by
  rw [groupRules]
  by_cases hN : Number.start c = true
  · have hb : Number.belongs c = true := by
      simp only [Number] at hN ⊢
      simp [hN]
    have he : Number.end_ c = true := hN
    simp only [firstGroup, hN, if_pos]
    exact ruleBoundary_spec _ _ _ hb he
  · by_cases hA : AlphaNumeric.start c = true
    · simp only [firstGroup, hN, if_neg, hA, if_pos]
      exact ruleBoundary_spec _ _ _ hA hA
    · by_cases hW : Whitespace.start c = true
      · simp only [firstGroup, hN, if_neg, hA, hW, if_pos]
        exact ruleBoundary_spec _ _ _ hW hW
      · simp only [firstGroup, hN, hA, hW, if_neg]
        refine ⟨c.utf8Size, rfl, Char.utf8Size_pos c, ?_⟩
        have : c :: rest = [c] ++ rest := rfl
        rw [this]
        have : byteLen [c] = c.utf8Size := by simp [byteLen]
        rw [← this]
        exact isBoundary_append _ _

theorem groupF_spec (c : Char) (rest : Str) :
    ∃ e, groupF (c :: rest) = some (some e) ∧ 1 ≤ e ∧
      isBoundary (c :: rest) e = true := by
  obtain ⟨e, he, h1, hbnd⟩ := firstGroup_spec c rest
  exact ⟨e, by simp [groupF, he], h1, hbnd⟩

theorem tokenIter_groupF (fuel : Nat) (l : Str) (h : l.length < fuel) :
    ∃ ts, tokenIter groupF fuel l = some ts ∧ ts.flatten = l := by
  induction fuel generalizing l with
  | zero => omega
  | succ f ih =>
    cases l with
    | nil => exact ⟨[], by simp [tokenIter], rfl⟩
    | cons c rest =>
      obtain ⟨e, hge, h1, hbnd⟩ := groupF_spec c rest
      have hlt := dropBytes_length_lt (l := c :: rest) (by simp) h1 hbnd
      have hdl : (dropBytes (c :: rest) e).length < f := by
        simp only [List.length_cons] at h hlt
        omega
      obtain ⟨ts, hts, hfl⟩ := ih (dropBytes (c :: rest) e) hdl
      refine ⟨takeBytes (c :: rest) e :: ts, ?_, ?_⟩
      · rw [tokenIter, if_neg (by simp)]
        simp only [hge, Option.getD_some, hts]
      · simp only [List.flatten_cons, hfl]
        exact takeBytes_append_dropBytes _ _

theorem groupTokens_spec (l : Str) :
    ∃ ts, groupTokens l = some ts ∧ ts.flatten = l :=
  tokenIter_groupF _ _ (Nat.lt_succ_self _)

/-! ## Claims C5, C6, C7, C10 -/

/-- C5: word-group tokenization tries the Number, AlphaNumeric, Whitespace
rules in that fixed order (`groupRules`), and emits a single-character group
when none of them starts; a Number group consumes numerics and `'.'` but must
end on a numeric character, so trailing dots are excluded and retried:
`" one two     three\n"` groups to
`[" ", "one", " ", "two", "     ", "three", "\n"]`, `"$1000000.00."` to
`["$", "1000000.00", "."]` and `"_alpha_numeric"` to `["_alpha_numeric"]`. -/
theorem group_tokenization_examples :
    groupTokens " one two     three\n".data =
      some [" ".data, "one".data, " ".data, "two".data, "     ".data,
        "three".data, "\n".data] ∧
    groupTokens "$1000000.00.".data =
      some ["$".data, "1000000.00".data, ".".data] ∧
    groupTokens "_alpha_numeric".data = some ["_alpha_numeric".data] ∧
    groupRules = [Number, AlphaNumeric, Whitespace] ∧
    (∀ c, Number.belongs c = (isNumericChar c || c = '.')) ∧
    (∀ c, Number.end_ c = isNumericChar c) ∧
    (∀ (c : Char) (rest : Str),
      Number.start c = false → AlphaNumeric.start c = false → Whitespace.start c = false →
      firstGroup groupRules c (c :: rest) = some c.utf8Size) := by
  refine ⟨by decide, by decide, by decide, rfl, fun c => rfl, fun c => rfl, ?_⟩
  intro c rest hN hA hW
  simp [groupRules, firstGroup, hN, hA, hW]

/-- Witness for C5's single-character fallback at a concrete input. -/
theorem group_tokenization_examples_witness :
    firstGroup groupRules '$' ('$' :: "1".data) = some (Char.utf8Size '$') :=
  group_tokenization_examples.2.2.2.2.2.2 '$' "1".data (by decide) (by decide) (by decide)

/-- C6: line tokenization cuts just after each `'\n'` and keeps a final
fragment without one (this is exactly `splitInclusive`); empty input yields no
tokens; `"line one\nline two\r\nline three\n"` tokenizes to the three lines
with their terminators. -/
theorem line_tokenization_spec :
    (∀ l : Str, lineTokens l = some (splitInclusive l)) ∧
    lineTokens [] = some [] ∧
    lineTokens "line one\nline two\r\nline three\n".data =
      some ["line one\n".data, "line two\r\n".data, "line three\n".data] := by
  refine ⟨lineTokens_eq, by decide, ?_⟩
  rw [lineTokens_eq]
  decide

/-- C7: both tokenizers are partitions of their input — the emitted slices
concatenate back to the input — and every split position the group tokenizer
returns is a character boundary of the UTF-8 encoding. -/
theorem tokenization_partition :
    (∀ l : Str, ∃ ts, lineTokens l = some ts ∧ ts.flatten = l) ∧
    (∀ l : Str, ∃ ts, groupTokens l = some ts ∧ ts.flatten = l) ∧
    (∀ (c : Char) (rest : Str), ∃ e, groupF (c :: rest) = some (some e) ∧
      isBoundary (c :: rest) e = true) := by
  refine ⟨?_, ?_, ?_⟩
  · intro l
    exact ⟨splitInclusive l, lineTokens_eq l, splitInclusive_flatten l⟩
  · exact groupTokens_spec
  · intro c rest
    obtain ⟨e, he, _, hbnd⟩ := groupF_spec c rest
    exact ⟨e, he, hbnd⟩

/-- C10: for each grouping rule the start predicate implies the end predicate,
so on any nonempty input the group boundary search of `GroupIter::new` returns
a positive boundary — the backward walk never underflows past the first
character and the no-character fallback branch is unreachable. -/
theorem group_boundary_total :
    (∀ d, Number.start d = true → Number.end_ d = true) ∧
    (∀ d, AlphaNumeric.start d = true → AlphaNumeric.end_ d = true) ∧
    (∀ d, Whitespace.start d = true → Whitespace.end_ d = true) ∧
    (∀ (c : Char) (rest : Str),
      ∃ e, firstGroup groupRules c (c :: rest) = some e ∧ 1 ≤ e) := by
  refine ⟨fun d h => h, fun d h => h, fun d h => h, fun c rest => ?_⟩
  obtain ⟨e, he, h1, _⟩ := firstGroup_spec c rest
  exact ⟨e, he, h1⟩

/-- Witness for C10 at concrete inputs. -/
theorem group_boundary_total_witness :
    Number.end_ '5' = true ∧
    (∃ e, firstGroup groupRules 'a' ['a'] = some e ∧ 1 ≤ e) :=
  ⟨group_boundary_total.1 '5' (by decide), group_boundary_total.2.2.2 'a' []⟩

/-! ## Chunk lemmas -/

theorem textOf_append (x y : List Chunk) : textOf (x ++ y) = textOf x ++ textOf y := by
  simp [textOf]

theorem textOf_text (s : Str) : textOf [Chunk.text s] = s := by simp [textOf]

theorem textOf_paint (t : StyleTag) (s : Str) : textOf (paint t s) = s := by
  simp [textOf, paint]

/-- The plain text of a rendered line does not depend on the color flag. -/
theorem textOf_fmtLine_wc (wc : Bool) (ln : Line) :
    textOf (fmtLine wc ln) = textOf (fmtLine false ln) := by
  cases ln <;> cases wc <;> simp [fmtLine, textOf]

/-- The plain text of a hunk header does not depend on the color flag. -/
theorem textOf_fmtHunkHeader_wc (wc : Bool) (h : Hunk) :
    textOf (fmtHunkHeader wc h) = textOf (fmtHunkHeader false h) := by
  cases hfc : h.function_context <;> cases wc <;>
    simp [fmtHunkHeader, textOf, hfc]

/-! ## Plain-mode rendering never invokes the intraline machinery -/

theorem renderHunkLines_plain (lines : List Line) :
    ∀ (isCtx : Bool) (origs mods : List Str),
      renderHunkLines false lines isCtx origs mods = .ok (renderLinesPlain lines) := by
  induction lines with
  | nil => intro isCtx origs mods; rfl
  | cons ln rest ih =>
    intro isCtx origs mods
    simp [renderHunkLines, ih, renderLinesPlain, Except.map]

theorem renderHunk_plain (h : Hunk) : renderHunk false h = .ok (renderHunkPlain h) := by
  simp [renderHunk, renderHunkLines_plain, renderHunkPlain, Except.map]

theorem renderHunks_plain (hs : List Hunk) :
    renderHunks false hs = .ok ((hs.map renderHunkPlain).flatten) := by
  induction hs with
  | nil => rfl
  | cons h rest ih => simp [renderHunks, renderHunk_plain, ih, Except.map]

theorem renderPatch_plain (p : Patch) : renderPatch false p = .ok (renderPatchPlain p) := by
  simp only [renderPatch, renderHunks_plain, Except.map, renderPatchPlain]
  cases p.original <;> cases p.modified <;> simp

/-! ## Claim C2: body lines -/

/-- C2 (amended): every line renders as its sign character followed by its
text — except that a Context line whose text is exactly `"\n"` is written
without the sign — and, when the text has no trailing newline, the body line
is closed and the literal no-newline marker line follows immediately; the
plain text is the same with and without color. -/
theorem line_rendition (wc : Bool) (ln : Line) :
    textOf (fmtLine wc ln) =
      (match ln with
        | Line.context s => if s = ['\n'] then s else ' ' :: s
        | Line.delete s => '-' :: s
        | Line.insert s => '+' :: s)
      ++ (match ln with
          | Line.context s => if endsWithNewline s then [] else '\n' :: (NO_NEWLINE_AT_EOF ++ ['\n'])
          | Line.delete s => if endsWithNewline s then [] else '\n' :: (NO_NEWLINE_AT_EOF ++ ['\n'])
          | Line.insert s => if endsWithNewline s then [] else '\n' :: (NO_NEWLINE_AT_EOF ++ ['\n'])) := by
  cases ln <;> cases wc <;> simp [fmtLine, textOf] <;> split_ifs <;> simp_all

/-- Counterexample for C2 as stated: a Context line whose text is exactly
`"\n"` is emitted without the leading space sign. -/
theorem line_blank_context_no_sign :
    textOf (fmtLine false (Line.context ['\n'])) = ['\n'] ∧
    textOf (fmtLine false (Line.context ['\n'])) ≠ [' ', '\n'] := by
  constructor <;> decide

/-! ## Claim C3: the hunk header -/

/-- C3 (amended): the hunk header is `@@ -old_start,old_len +new_start,new_len @@`
followed, when a section label is present, by two spaces and the label, then a
newline; its plain text is identical with and without color. -/
theorem hunk_header_rendition (wc : Bool) (h : Hunk) :
    textOf (fmtHunkHeader wc h) =
      headerCore h
        ++ (match h.function_context with
            | none => []
            | some ctx => ' ' :: ' ' :: ctx)
        ++ ['\n'] := by
  cases hfc : h.function_context <;> cases wc <;>
    simp [fmtHunkHeader, textOf, hfc]

/-- Counterexample for C3 as stated: with a section label the rendered header
contains two spaces between `@@` and the label, not one. -/
theorem hunk_header_double_space :
    textOf (fmtHunkHeader false ⟨⟨1, 2⟩, ⟨3, 4⟩, some "main".data, [], [], []⟩) =
      "@@ -1,2 +3,4 @@  main\n".data ∧
    textOf (fmtHunkHeader false ⟨⟨1, 2⟩, ⟨3, 4⟩, some "main".data, [], [], []⟩) ≠
      "@@ -1,2 +3,4 @@ main\n".data := by
  constructor <;> decide

/-! ## Claim C9: missing captured blocks abort the render -/

/-- C9 (amended): when the colored line loop reaches a change run and the
captured `originals` (or `modifieds`) blocks are exhausted — i.e. there are
fewer captured blocks than change runs — rendering aborts with one of the two
descriptive `expect` messages rather than producing output.  (Surplus blocks,
by contrast, are silently ignored; see the counterexample.) -/
theorem colored_render_aborts_on_missing_block (lines : List Line) :
    ∀ (isCtx : Bool) (origs mods : List Str),
      (origs.length < changeRuns lines isCtx ∨ mods.length < changeRuns lines isCtx) →
      renderHunkLines true lines isCtx origs mods = .error expectedDeletedMsg ∨
      renderHunkLines true lines isCtx origs mods = .error expectedInsertedMsg := by
  induction lines with
  | nil =>
    intro isCtx origs mods h
    simp [changeRuns] at h
  | cons ln rest ih =>
    intro isCtx origs mods h
    cases ln with
    | context s =>
      have h' : origs.length < changeRuns rest true ∨ mods.length < changeRuns rest true := by
        simpa [changeRuns] using h
      rcases ih true origs mods h' with he | he
      · left; simp [renderHunkLines, he, Except.map]
      · right; simp [renderHunkLines, he, Except.map]
    | delete s =>
      by_cases hc : isCtx = true
      · subst hc
        cases origs with
        | nil => left; simp [renderHunkLines]
        | cons o os =>
          cases mods with
          | nil => right; simp [renderHunkLines]
          | cons m ms =>
            have h' : os.length < changeRuns rest false ∨ ms.length < changeRuns rest false := by
              rcases h with h | h
              · left; simp [changeRuns] at h; omega
              · right; simp [changeRuns] at h; omega
            rcases ih false os ms h' with he | he
            · left; simp [renderHunkLines, he, Except.map]
            · right; simp [renderHunkLines, he, Except.map]
      · have hc' : isCtx = false := by simpa using hc
        subst hc'
        have h' : origs.length < changeRuns rest false ∨ mods.length < changeRuns rest false := by
          simpa [changeRuns] using h
        rcases ih false origs mods h' with he | he
        · left; simpa [renderHunkLines, Except.map] using he
        · right; simpa [renderHunkLines, Except.map] using he
    | insert s =>
      by_cases hc : isCtx = true
      · subst hc
        cases origs with
        | nil => left; simp [renderHunkLines]
        | cons o os =>
          cases mods with
          | nil => right; simp [renderHunkLines]
          | cons m ms =>
            have h' : os.length < changeRuns rest false ∨ ms.length < changeRuns rest false := by
              rcases h with h | h
              · left; simp [changeRuns] at h; omega
              · right; simp [changeRuns] at h; omega
            rcases ih false os ms h' with he | he
            · left; simp [renderHunkLines, he, Except.map]
            · right; simp [renderHunkLines, he, Except.map]
      · have hc' : isCtx = false := by simpa using hc
        subst hc'
        have h' : origs.length < changeRuns rest false ∨ mods.length < changeRuns rest false := by
          simpa [changeRuns] using h
        rcases ih false origs mods h' with he | he
        · left; simpa [renderHunkLines, Except.map] using he
        · right; simpa [renderHunkLines, Except.map] using he

/-- Witness for C9 at a concrete input: one Delete line, no captured blocks. -/
theorem colored_render_aborts_witness :
    renderHunkLines true [Line.delete "a\n".data] true [] [] = .error expectedDeletedMsg ∨
    renderHunkLines true [Line.delete "a\n".data] true [] [] = .error expectedInsertedMsg :=
  colored_render_aborts_on_missing_block [Line.delete "a\n".data] true [] [] (by decide)

/-- Counterexample for C9 as stated: a surplus captured block (one block, zero
change runs) is a count mismatch, yet rendering succeeds and produces output
instead of aborting. -/
theorem colored_render_ignores_surplus_blocks :
    changeRuns [Line.context "a\n".data] true = 0 ∧
    renderHunkLines true [Line.context "a\n".data] true ["x\n".data] [] =
      .ok (fmtLine true (Line.context "a\n".data) ++ []) := by
  constructor
  · rfl
  · rfl

/-! ## The start-of-line flag: marker insertion lemmas -/

theorem beq_newline (c : Char) : (c == '\n') = decide (c = '\n') := by
  by_cases h : c = '\n' <;> simp [h]

theorem endsWithNewline_append {y : Str} (x : Str) (hy : y ≠ []) :
    endsWithNewline (x ++ y) = endsWithNewline y := by
  simp [endsWithNewline, List.getLast?_append_of_ne_nil _ hy]

theorem endsWithNewline_singleton (c : Char) :
    endsWithNewline [c] = (c == '\n') := by
  rw [beq_newline]
  simp [endsWithNewline]

theorem armAfter_nil (sl : Bool) : armAfter sl [] = sl := rfl

theorem armAfter_cons (sl : Bool) (c : Char) (x : Str) :
    armAfter sl (c :: x) = armAfter (c == '\n') x := by
  cases x with
  | nil => simp [armAfter, endsWithNewline_singleton]
  | cons d y =>
    show endsWithNewline (c :: d :: y) = endsWithNewline (d :: y)
    exact endsWithNewline_append [c] (by simp)

theorem armAfter_ne_nil {s : Str} (h : s ≠ []) (sl : Bool) :
    armAfter sl s = endsWithNewline s := by
  cases s with
  | nil => exact absurd rfl h
  | cons c t => rfl

theorem armAfter_append (sl : Bool) (x y : Str) :
    armAfter sl (x ++ y) = armAfter (armAfter sl x) y := by
  cases y with
  | nil => simp [armAfter_nil]
  | cons d t =>
    have h1 : armAfter sl (x ++ d :: t) = endsWithNewline (x ++ d :: t) := by
      cases x with
      | nil => rfl
      | cons c r => rfl
    rw [h1, endsWithNewline_append x (by simp)]
    rfl

theorem markText_append (m : Str) (x : Str) :
    ∀ (sl : Bool) (y : Str),
      markText m sl (x ++ y) = markText m sl x ++ markText m (armAfter sl x) y := by
  induction x with
  | nil => intro sl y; simp [markText, armAfter_nil]
  | cons c x' ih =>
    intro sl y
    show markText m sl (c :: (x' ++ y)) = _
    rw [markText, ih (c == '\n') y, armAfter_cons]
    simp [markText]

theorem flagAfter_append (sl : Bool) (f1 f2 : List Str) :
    flagAfter sl (f1 ++ f2) = flagAfter (flagAfter sl f1) f2 := by
  induction f1 generalizing sl with
  | nil => rfl
  | cons g gs ih => simp [flagAfter, ih]

theorem markFrags_append (m : Str) (f1 : List Str) :
    ∀ (sl : Bool) (f2 : List Str),
      markFrags m sl (f1 ++ f2) = markFrags m sl f1 ++ markFrags m (flagAfter sl f1) f2 := by
  induction f1 with
  | nil => intro sl f2; simp [markFrags, flagAfter]
  | cons g gs ih =>
    intro sl f2
    show markFrags m sl (g :: (gs ++ f2)) = _
    rw [markFrags, ih, markFrags, flagAfter]
    simp

theorem splitInclusive_head_ne_nil {s : Str} {p : Str} {ps : List Str}
    (h : splitInclusive s = p :: ps) : p ≠ [] := by
  cases s with
  | nil => simp [splitInclusive] at h
  | cons c r =>
    by_cases hc : c = '\n'
    · rw [splitInclusive, if_pos hc] at h
      injection h with h1 _
      simp [← h1]
    · rw [splitInclusive, if_neg hc] at h
      cases hs : splitInclusive r with
      | nil => rw [hs, consHead] at h; injection h with h1 _; simp [← h1]
      | cons q qs => rw [hs, consHead] at h; injection h with h1 _; simp [← h1]

theorem markFrags_splitInclusive (m : Str) :
    ∀ (s : Str) (sl : Bool), markFrags m sl (splitInclusive s) = markText m sl s := by
  intro s
  induction s with
  | nil => intro sl; rfl
  | cons c rest ih =>
    intro sl
    by_cases hc : c = '\n'
    · subst hc
      rw [splitInclusive, if_pos rfl, markFrags, markText]
      have hew : endsWithNewline ['\n'] = true := by decide
      rw [hew, ih true]
      simp
    · rw [splitInclusive, if_neg hc, markText]
      have hcb : (c == '\n') = false := by
        rw [beq_newline]; simp [hc]
      rw [hcb]
      cases hs : splitInclusive rest with
      | nil =>
        have hr : rest = [] := splitInclusive_eq_nil hs
        subst hr
        rw [consHead, markFrags, markFrags]
        simp [markText]
      | cons p ps =>
        have hp : p ≠ [] := splitInclusive_head_ne_nil hs
        have hIH := ih false
        rw [hs] at hIH
        rw [consHead, markFrags]
        have hew : endsWithNewline (c :: p) = endsWithNewline p := by
          cases p with
          | nil => exact absurd rfl hp
          | cons q qs => exact endsWithNewline_append [c] (by simp)
        rw [hew]
        rw [markFrags] at hIH
        simp only [if_neg (by simp : ¬ (false = true)), List.nil_append] at hIH
        rw [← hIH]
        simp

theorem flagAfter_splitInclusive :
    ∀ (s : Str) (sl : Bool), flagAfter sl (splitInclusive s) = armAfter sl s := by
  intro s
  induction s with
  | nil => intro sl; rfl
  | cons c rest ih =>
    intro sl
    by_cases hc : c = '\n'
    · subst hc
      rw [splitInclusive, if_pos rfl, flagAfter, ih, armAfter_cons]
      have : endsWithNewline ['\n'] = true := by decide
      rw [this]
      have : (('\n' : Char) == '\n') = true := by decide
      rw [this]
    · rw [splitInclusive, if_neg hc, armAfter_cons]
      have hcb : (c == '\n') = false := by rw [beq_newline]; simp [hc]
      rw [hcb]
      cases hs : splitInclusive rest with
      | nil =>
        have hr : rest = [] := splitInclusive_eq_nil hs
        subst hr
        rw [consHead, flagAfter, flagAfter, endsWithNewline_singleton, hcb, armAfter_nil]
      | cons p ps =>
        have hp : p ≠ [] := splitInclusive_head_ne_nil hs
        have hIH := ih false
        rw [hs, flagAfter] at hIH
        rw [consHead, flagAfter]
        have hew : endsWithNewline (c :: p) = endsWithNewline p := by
          cases p with
          | nil => exact absurd rfl hp
          | cons q qs => exact endsWithNewline_append [c] (by simp)
        rw [hew, hIH]

theorem fragsOf_cons (g : Str) (gs : List Str) :
    fragsOf (g :: gs) = splitInclusive g ++ fragsOf gs := by
  simp [fragsOf]

theorem markFrags_fragsOf (m : Str) (gs : List Str) :
    ∀ sl, markFrags m sl (fragsOf gs) = markText m sl gs.flatten := by
  induction gs with
  | nil => intro sl; rfl
  | cons g gs' ih =>
    intro sl
    rw [fragsOf_cons, markFrags_append, markFrags_splitInclusive, flagAfter_splitInclusive,
      ih, List.flatten_cons, markText_append]

theorem flagAfter_fragsOf (gs : List Str) :
    ∀ sl, flagAfter sl (fragsOf gs) = armAfter sl gs.flatten := by
  induction gs with
  | nil => intro sl; rfl
  | cons g gs' ih =>
    intro sl
    rw [fragsOf_cons, flagAfter_append, flagAfter_splitInclusive, ih, List.flatten_cons,
      armAfter_append]

/-! ## Text and flag behavior of the render closure -/

theorem renderFrags_spec (ls : List Chunk) (pf : Str → List Chunk)
    (hpf : ∀ s, textOf (pf s) = s) (frags : List Str) :
    ∀ sl, textOf (renderFrags ls pf sl frags).1 = markFrags (textOf ls) sl frags ∧
      (renderFrags ls pf sl frags).2 = flagAfter sl frags := by
  induction frags with
  | nil => intro sl; exact ⟨rfl, rfl⟩
  | cons g gs ih =>
    intro sl
    obtain ⟨iht, ihf⟩ := ih (endsWithNewline g)
    constructor
    · show textOf (((if sl then ls else []) ++ pf g) ++ _) = _
      rw [textOf_append, textOf_append, iht, markFrags, hpf]
      cases sl <;> simp [textOf]
    · show (renderFrags ls pf (endsWithNewline g) gs).2 = _
      rw [ihf, flagAfter]

theorem renderRange_spec (groups : List Str) (idx : Nat) (sl : Bool) (rlen : Nat)
    (ls : List Chunk) (pf : Str → List Chunk) (hpf : ∀ s, textOf (pf s) = s) :
    textOf (renderRange groups idx sl rlen ls pf).1 =
      markText (textOf ls) sl (((groups.drop idx).take rlen).flatten) ∧
    (renderRange groups idx sl rlen ls pf).2 =
      armAfter sl (((groups.drop idx).take rlen).flatten) := by
  obtain ⟨ht, hf⟩ := renderFrags_spec ls pf hpf (fragsOf ((groups.drop idx).take rlen)) sl
  constructor
  · show textOf (renderFrags ls pf sl (fragsOf ((groups.drop idx).take rlen))).1 = _
    rw [ht, markFrags_fragsOf]
  · show (renderFrags ls pf sl (fragsOf ((groups.drop idx).take rlen))).2 = _
    rw [hf, flagAfter_fragsOf]

theorem take_add_flatten (groups : List Str) (idx m n : Nat) :
    ((groups.drop idx).take (m + n)).flatten =
      ((groups.drop idx).take m).flatten ++ ((groups.drop (idx + m)).take n).flatten := by
  rw [List.take_add, List.flatten_append, List.drop_drop]
  try rw [Nat.add_comm m idx]

theorem deleteSideGo_text (groups : List Str) (sol : List DiffRange) :
    ∀ (idx : Nat) (sl : Bool),
      textOf (deleteSideGo groups sol idx sl) =
        markText ['-'] sl (((groups.drop idx).take (aLens sol)).flatten) := by
  induction sol with
  | nil => intro idx sl; simp [deleteSideGo, aLens, markText, textOf]
  | cons dr rest ih =>
    intro idx sl
    cases dr with
    | equal a b =>
      rw [deleteSideGo, textOf_append, ih]
      obtain ⟨ht, hf⟩ := renderRange_spec groups idx sl a.len markerDel
        (fun s => [Chunk.text s]) (fun s => textOf_text s)
      rw [ht, hf]
      have hm : textOf markerDel = ['-'] := textOf_paint _ _
      rw [hm, aLens, take_add_flatten, markText_append]
    | delete a =>
      rw [deleteSideGo, textOf_append, ih]
      obtain ⟨ht, hf⟩ := renderRange_spec groups idx sl a.len markerDel
        (fun s => paint .delete s) (fun s => textOf_paint _ s)
      rw [ht, hf]
      have hm : textOf markerDel = ['-'] := textOf_paint _ _
      rw [hm, aLens, take_add_flatten, markText_append]
    | insert b =>
      rw [deleteSideGo, ih, aLens]

theorem insertSideGo_text (groups : List Str) (sol : List DiffRange) :
    ∀ (idx : Nat) (sl : Bool),
      textOf (insertSideGo groups sol idx sl) =
        markText ['+'] sl (((groups.drop idx).take (bLens sol)).flatten) := by
  induction sol with
  | nil => intro idx sl; simp [insertSideGo, bLens, markText, textOf]
  | cons dr rest ih =>
    intro idx sl
    cases dr with
    | equal a b =>
      rw [insertSideGo, textOf_append, ih]
      obtain ⟨ht, hf⟩ := renderRange_spec groups idx sl b.len markerIns
        (fun s => [Chunk.text s]) (fun s => textOf_text s)
      rw [ht, hf]
      have hm : textOf markerIns = ['+'] := textOf_paint _ _
      rw [hm, bLens, take_add_flatten, markText_append]
    | insert b =>
      rw [insertSideGo, textOf_append, ih]
      obtain ⟨ht, hf⟩ := renderRange_spec groups idx sl b.len markerIns
        (fun s => paint .insert s) (fun s => textOf_paint _ s)
      rw [ht, hf]
      have hm : textOf markerIns = ['+'] := textOf_paint _ _
      rw [hm, bLens, take_add_flatten, markText_append]
    | delete a =>
      rw [insertSideGo, ih, bLens]

/-! ## Claim C8: the marker is emitted exactly once per physical line -/

/-- C8: during the intraline sub-diff render the leading `-`/`+` marker is
emitted exactly once per physical output line, however many word-groups
compose the line: the rendered text of each side equals the consumed group
content with the marker inserted exactly at the start of every physical line
(`markText` places the marker before the first character and after each
newline followed by more output — the flag starts armed, is cleared once the
marker is written, and is re-armed exactly by a fragment ending in `'\n'`). -/
theorem intraline_marker_once_per_line (groups : List Str) (sol : List DiffRange) :
    textOf (deleteSideGo groups sol 0 true) =
      markText ['-'] true ((groups.take (aLens sol)).flatten) ∧
    textOf (insertSideGo groups sol 0 true) =
      markText ['+'] true ((groups.take (bLens sol)).flatten) := by
  constructor
  · have := deleteSideGo_text groups sol 0 true
    simpa using this
  · have := insertSideGo_text groups sol 0 true
    simpa using this

/-! ## Styled/unstyled characterization of the intraline render -/

theorem depthAfter_append (x y : List Chunk) :
    ∀ d, depthAfter (x ++ y) d = depthAfter y (depthAfter x d) := by
  induction x with
  | nil => intro d; rfl
  | cons c rest ih => intro d; cases c <;> simp [depthAfter, ih]

theorem unstyledTextOf_append (x y : List Chunk) :
    ∀ d, unstyledTextOf (x ++ y) d = unstyledTextOf x d ++ unstyledTextOf y (depthAfter x d) := by
  induction x with
  | nil => intro d; rfl
  | cons c rest ih => intro d; cases c <;> simp [unstyledTextOf, depthAfter, ih]

theorem depthAfter_paint (t : StyleTag) (s : Str) (d : Nat) :
    depthAfter (paint t s) d = d := rfl

theorem unstyledTextOf_paint_zero (t : StyleTag) (s : Str) :
    unstyledTextOf (paint t s) 0 = [] := rfl

theorem renderFrags_depth (ls : List Chunk) (pf : Str → List Chunk)
    (hls : ∀ d, depthAfter ls d = d) (hpf : ∀ s d, depthAfter (pf s) d = d)
    (frags : List Str) :
    ∀ sl d, depthAfter (renderFrags ls pf sl frags).1 d = d := by
  induction frags with
  | nil => intro sl d; rfl
  | cons g gs ih =>
    intro sl d
    show depthAfter (((if sl then ls else []) ++ pf g) ++ _) d = d
    rw [depthAfter_append, depthAfter_append, ih]
    cases sl <;> simp [depthAfter, hls, hpf]

theorem renderFrags_unstyled_id (ls : List Chunk)
    (hls0 : unstyledTextOf ls 0 = []) (hlsd : ∀ d, depthAfter ls d = d)
    (frags : List Str) :
    ∀ sl, unstyledTextOf (renderFrags ls (fun s => [Chunk.text s]) sl frags).1 0 =
      frags.flatten := by
  induction frags with
  | nil => intro sl; rfl
  | cons g gs ih =>
    intro sl
    show unstyledTextOf (((if sl then ls else []) ++ [Chunk.text g]) ++ _) 0 = _
    rw [unstyledTextOf_append, unstyledTextOf_append, depthAfter_append]
    cases sl <;> simp [unstyledTextOf, depthAfter, hls0, hlsd, ih]

theorem renderFrags_unstyled_paint (ls : List Chunk)
    (hls0 : unstyledTextOf ls 0 = []) (hlsd : ∀ d, depthAfter ls d = d)
    (t : StyleTag) (frags : List Str) :
    ∀ sl, unstyledTextOf (renderFrags ls (fun s => paint t s) sl frags).1 0 = [] := by
  induction frags with
  | nil => intro sl; rfl
  | cons g gs ih =>
    intro sl
    show unstyledTextOf (((if sl then ls else []) ++ paint t g) ++ _) 0 = _
    rw [unstyledTextOf_append, unstyledTextOf_append, depthAfter_append]
    cases sl <;>
      simp [unstyledTextOf_paint_zero, depthAfter_paint, unstyledTextOf, depthAfter,
        hls0, hlsd, ih]

theorem fragsOf_flatten (gs : List Str) : (fragsOf gs).flatten = gs.flatten := by
  induction gs with
  | nil => rfl
  | cons g gs' ih => rw [fragsOf_cons, List.flatten_append, splitInclusive_flatten, ih]; rfl

theorem markerDel_unstyled : unstyledTextOf markerDel 0 = [] := rfl

theorem markerDel_depth : ∀ d, depthAfter markerDel d = d := fun _ => rfl

theorem markerIns_unstyled : unstyledTextOf markerIns 0 = [] := rfl

theorem markerIns_depth : ∀ d, depthAfter markerIns d = d := fun _ => rfl

theorem deleteSideGo_depth (groups : List Str) (sol : List DiffRange) :
    ∀ idx sl d, depthAfter (deleteSideGo groups sol idx sl) d = d := by
  induction sol with
  | nil => intro idx sl d; rfl
  | cons dr rest ih =>
    intro idx sl d
    cases dr with
    | equal a b =>
      show depthAfter ((renderFrags _ _ _ _).1 ++ _) d = d
      rw [depthAfter_append,
        renderFrags_depth markerDel (fun s => [Chunk.text s]) markerDel_depth
          (fun s d => rfl) _ _ _, ih]
    | delete a =>
      show depthAfter ((renderFrags _ _ _ _).1 ++ _) d = d
      rw [depthAfter_append,
        renderFrags_depth markerDel (fun s => paint .delete s) markerDel_depth
          (fun s d => depthAfter_paint _ s d) _ _ _, ih]
    | insert b => exact ih idx sl d

theorem insertSideGo_depth (groups : List Str) (sol : List DiffRange) :
    ∀ idx sl d, depthAfter (insertSideGo groups sol idx sl) d = d := by
  induction sol with
  | nil => intro idx sl d; rfl
  | cons dr rest ih =>
    intro idx sl d
    cases dr with
    | equal a b =>
      show depthAfter ((renderFrags _ _ _ _).1 ++ _) d = d
      rw [depthAfter_append,
        renderFrags_depth markerIns (fun s => [Chunk.text s]) markerIns_depth
          (fun s d => rfl) _ _ _, ih]
    | insert b =>
      show depthAfter ((renderFrags _ _ _ _).1 ++ _) d = d
      rw [depthAfter_append,
        renderFrags_depth markerIns (fun s => paint .insert s) markerIns_depth
          (fun s d => depthAfter_paint _ s d) _ _ _, ih]
    | delete a => exact ih idx sl d

theorem deleteSideGo_unstyled (groups : List Str) (sol : List DiffRange) :
    ∀ idx sl, unstyledTextOf (deleteSideGo groups sol idx sl) 0 = equalAText groups sol idx := by
  induction sol with
  | nil => intro idx sl; rfl
  | cons dr rest ih =>
    intro idx sl
    cases dr with
    | equal a b =>
      show unstyledTextOf ((renderFrags _ _ _ _).1 ++ _) 0 = _
      rw [unstyledTextOf_append,
        renderFrags_depth markerDel (fun s => [Chunk.text s]) markerDel_depth
          (fun s d => rfl) _ _ _,
        renderFrags_unstyled_id _ markerDel_unstyled markerDel_depth _ _,
        fragsOf_flatten, ih, equalAText]
    | delete a =>
      show unstyledTextOf ((renderFrags _ _ _ _).1 ++ _) 0 = _
      rw [unstyledTextOf_append,
        renderFrags_depth markerDel (fun s => paint .delete s) markerDel_depth
          (fun s d => depthAfter_paint _ s d) _ _ _,
        renderFrags_unstyled_paint _ markerDel_unstyled markerDel_depth _ _ _, ih, equalAText]
      rfl
    | insert b =>
      show unstyledTextOf (deleteSideGo groups rest idx sl) 0 = _
      rw [ih, equalAText]

theorem insertSideGo_unstyled (groups : List Str) (sol : List DiffRange) :
    ∀ idx sl, unstyledTextOf (insertSideGo groups sol idx sl) 0 = equalBText groups sol idx := by
  induction sol with
  | nil => intro idx sl; rfl
  | cons dr rest ih =>
    intro idx sl
    cases dr with
    | equal a b =>
      show unstyledTextOf ((renderFrags _ _ _ _).1 ++ _) 0 = _
      rw [unstyledTextOf_append,
        renderFrags_depth markerIns (fun s => [Chunk.text s]) markerIns_depth
          (fun s d => rfl) _ _ _,
        renderFrags_unstyled_id _ markerIns_unstyled markerIns_depth _ _,
        fragsOf_flatten, ih, equalBText]
    | insert b =>
      show unstyledTextOf ((renderFrags _ _ _ _).1 ++ _) 0 = _
      rw [unstyledTextOf_append,
        renderFrags_depth markerIns (fun s => paint .insert s) markerIns_depth
          (fun s d => depthAfter_paint _ s d) _ _ _,
        renderFrags_unstyled_paint _ markerIns_unstyled markerIns_depth _ _ _, ih, equalBText]
      rfl
    | delete a =>
      show unstyledTextOf (insertSideGo groups rest idx sl) 0 = _
      rw [ih, equalBText]

/-! ## Claim C1 -/

/-- C1 (amended): intraline highlighting happens only when color mode is
enabled — without color every hunk renders through the plain per-line path,
with no sub-diff — and within the intraline render only word-groups falling
in Delete/Insert ranges of the sub-diff are styled: the unstyled change-line
text of each pass is exactly the Equal-range group content (markers and
Delete/Insert groups are all wrapped in styles).  The sub-diff is applied to
every change run, pairing the k-th captured Delete-run block with the k-th
captured Insert-run block whether or not they are adjacent (see the
counterexample), not only to pure replace blocks. -/
theorem intraline_color_only_and_equal_unstyled :
    (∀ h : Hunk, renderHunk false h = .ok (renderHunkPlain h)) ∧
    (∀ (groups : List Str) (sol : List DiffRange) (idx : Nat) (sl : Bool),
      unstyledTextOf (deleteSideGo groups sol idx sl) 0 = equalAText groups sol idx) ∧
    (∀ (groups : List Str) (sol : List DiffRange) (idx : Nat) (sl : Bool),
      unstyledTextOf (insertSideGo groups sol idx sl) 0 = equalBText groups sol idx) :=
  ⟨renderHunk_plain,
    fun groups sol idx sl => deleteSideGo_unstyled groups sol idx sl,
    fun groups sol idx sl => insertSideGo_unstyled groups sol idx sl⟩

/-- Counterexample for C1 as stated: a hunk whose change structure is not a
pure replace block (Delete-run, context, Insert-run, Delete-run, Insert-run)
is still intraline-highlighted — the first Delete-run is sub-diffed against
an Insert-run that is not adjacent to it, and the colored rendition even
reorders the change lines relative to the plain rendition. -/
theorem intraline_nonreplace_highlighted :
    (Except.map textOf (renderHunkLines true
        [Line.delete "x a\n".data, Line.context "c\n".data, Line.insert "x b\n".data,
          Line.delete "d\n".data, Line.insert "e\n".data] true
        ["x a\n".data, "d\n".data] ["x b\n".data, "e\n".data])).toOption =
      some "-x a\n+x b\n c\n-d\n+e\n".data ∧
    textOf (renderLinesPlain
        [Line.delete "x a\n".data, Line.context "c\n".data, Line.insert "x b\n".data,
          Line.delete "d\n".data, Line.insert "e\n".data]) =
      "-x a\n c\n+x b\n-d\n+e\n".data ∧
    ("-x a\n+x b\n c\n-d\n+e\n".data : Str) ≠ "-x a\n c\n+x b\n-d\n+e\n".data := by
  refine ⟨?_, ?_, ?_⟩ <;> decide

/-! ## Reconstruction: the sub-diff consumes each side exactly once -/

theorem internAll_length (gs : List Str) :
    ∀ tbl, (internAll tbl gs).2.length = gs.length := by
  induction gs with
  | nil => intro tbl; rfl
  | cons g rest ih => intro tbl; simp [internAll, ih]

theorem countA_map_ins (bs : List Nat) : countA (bs.map fun _ => Step.ins) = 0 := by
  induction bs with
  | nil => rfl
  | cons b rest ih => simp only [List.map_cons, countA]; exact ih

theorem countB_map_ins (bs : List Nat) : countB (bs.map fun _ => Step.ins) = bs.length := by
  induction bs with
  | nil => rfl
  | cons b rest ih => simp only [List.map_cons, countB, ih, List.length_cons] <;> omega

theorem countA_map_del (as : List Nat) : countA (as.map fun _ => Step.del) = as.length := by
  induction as with
  | nil => rfl
  | cons a rest ih => simp only [List.map_cons, countA, ih, List.length_cons] <;> omega

theorem countB_map_del (as : List Nat) : countB (as.map fun _ => Step.del) = 0 := by
  induction as with
  | nil => rfl
  | cons a rest ih => simp only [List.map_cons, countB]; exact ih

theorem editScriptF_count (fuel : Nat) :
    ∀ (as bs : List Nat), as.length + bs.length ≤ fuel →
      countA (editScriptF fuel as bs) = as.length ∧
      countB (editScriptF fuel as bs) = bs.length := by
  induction fuel with
  | zero =>
    intro as bs h
    cases as with
    | nil =>
      simp only [editScriptF]
      exact ⟨countA_map_ins bs, countB_map_ins bs⟩
    | cons a as' => simp at h
  | succ f ih =>
    intro as bs h
    cases as with
    | nil =>
      simp only [editScriptF]
      exact ⟨countA_map_ins bs, countB_map_ins bs⟩
    | cons a as' =>
      cases bs with
      | nil =>
        simp only [editScriptF]
        exact ⟨countA_map_del (a :: as'), countB_map_del (a :: as')⟩
      | cons b bs' =>
        rw [editScriptF]
        by_cases hab : a = b
        · rw [if_pos hab]
          obtain ⟨h1, h2⟩ := ih as' bs' (by simp at h; omega)
          constructor
          · simp only [countA, h1, List.length_cons] <;> omega
          · simp only [countB, h2, List.length_cons] <;> omega
        · rw [if_neg hab]
          obtain ⟨hd1, hd2⟩ := ih as' (b :: bs') (by simp at h ⊢; omega)
          obtain ⟨hi1, hi2⟩ := ih (a :: as') bs' (by simp at h ⊢; omega)
          by_cases hc : stepCost (Step.del :: editScriptF f as' (b :: bs')) ≤
              stepCost (Step.ins :: editScriptF f (a :: as') bs')
          · rw [if_pos hc]
            constructor
            · simp only [countA, hd1, List.length_cons] <;> omega
            · simp only [countB, hd2, List.length_cons] <;> omega
          · rw [if_neg hc]
            constructor
            · simp only [countA, hi1, List.length_cons] <;> omega
            · simp only [countB, hi2, List.length_cons] <;> omega

theorem lens_stepsToRanges (steps : List Step) :
    ∀ i j, aLens (stepsToRanges steps i j) = countA steps ∧
      bLens (stepsToRanges steps i j) = countB steps := by
  induction steps with
  | nil => intro i j; exact ⟨rfl, rfl⟩
  | cons st rest ih =>
    intro i j
    cases st <;> simp [stepsToRanges, aLens, bLens, countA, countB, (ih _ _).1, (ih _ _).2]

theorem aLens_cons (x : DiffRange) (L : List DiffRange) :
    aLens (x :: L) = aLens [x] + aLens L := by
  cases x <;> simp [aLens]

theorem bLens_cons (x : DiffRange) (L : List DiffRange) :
    bLens (x :: L) = bLens [x] + bLens L := by
  cases x <;> simp [bLens]

theorem mergeDR_lens {x y z : DiffRange} (h : mergeDR x y = some z) :
    aLens [z] = aLens [x] + aLens [y] ∧ bLens [z] = bLens [x] + bLens [y] := by
  cases x <;> cases y <;> simp only [mergeDR] at h <;>
    try exact Option.noConfusion h
  all_goals
    split at h
    case isTrue =>
      injection h with hz
      subst hz
      refine ⟨?_, ?_⟩ <;> simp [aLens, bLens]
    case isFalse => exact Option.noConfusion h

theorem compactF_lens (fuel : Nat) :
    ∀ l, aLens (compactF fuel l) = aLens l ∧ bLens (compactF fuel l) = bLens l := by
  induction fuel with
  | zero =>
    intro l
    match l with
    | [] => exact ⟨rfl, rfl⟩
    | [x] => exact ⟨rfl, rfl⟩
    | x :: y :: rest => exact ⟨rfl, rfl⟩
  | succ f ih =>
    intro l
    match l with
    | [] => exact ⟨rfl, rfl⟩
    | [x] => exact ⟨rfl, rfl⟩
    | x :: y :: rest =>
      rw [compactF]
      cases hm : mergeDR x y with
      | some z =>
        have hz := mergeDR_lens hm
        have hcf := ih (z :: rest)
        have e1 := aLens_cons z rest
        have e2 := aLens_cons x (y :: rest)
        have e3 := aLens_cons y rest
        have f1 := bLens_cons z rest
        have f2 := bLens_cons x (y :: rest)
        have f3 := bLens_cons y rest
        obtain ⟨hz1, hz2⟩ := hz
        constructor
        · rw [hcf.1]; omega
        · rw [hcf.2]; omega
      | none =>
        have hcf := ih (y :: rest)
        have e1 := aLens_cons x (compactF f (y :: rest))
        have e2 := aLens_cons x (y :: rest)
        have f1 := bLens_cons x (compactF f (y :: rest))
        have f2 := bLens_cons x (y :: rest)
        constructor
        · rw [e1, hcf.1]; omega
        · rw [f1, hcf.2]; omega

theorem lens_subdiff (as bs : List Nat) :
    aLens (subdiff as bs) = as.length ∧ bLens (subdiff as bs) = bs.length := by
  obtain ⟨hc1, hc2⟩ := editScriptF_count (as.length + bs.length) as bs (Nat.le_refl _)
  obtain ⟨hs1, hs2⟩ := lens_stepsToRanges (editScript as bs) 0 0
  obtain ⟨hf1, hf2⟩ := compactF_lens (stepsToRanges (editScript as bs) 0 0).length
    (stepsToRanges (editScript as bs) 0 0)
  have hc1' : countA (editScript as bs) = as.length := by rw [editScript]; exact hc1
  have hc2' : countB (editScript as bs) = bs.length := by rw [editScript]; exact hc2
  constructor
  · rw [subdiff, compact, hf1, hs1, hc1']
  · rw [subdiff, compact, hf2, hs2, hc2']

theorem classifyGroups_flatten (tbl : List Str) (text : Str) :
    (classifyGroups tbl text).1.flatten = text := by
  obtain ⟨ts, hts, hfl⟩ := groupTokens_spec text
  simp [classifyGroups, hts, hfl]

theorem classifyGroups_ids_length (tbl : List Str) (text : Str) :
    (classifyGroups tbl text).2.1.length = (classifyGroups tbl text).1.length := by
  simp [classifyGroups, internAll_length]

/-- The plain text of one intraline change run: the deleted block with `-`
inserted at the start of each of its physical lines, then the inserted block
with `+` markers. -/
theorem renderSub_text (o m : Str) :
    textOf (renderSub o m) = markText ['-'] true o ++ markText ['+'] true m := by
  rw [renderSub, textOf_append]
  have hd := deleteSideGo_text (classifyGroups [] o).1
    (subdiff (classifyGroups [] o).2.1 (classifyGroups (classifyGroups [] o).2.2 m).2.1) 0 true
  have hi := insertSideGo_text (classifyGroups (classifyGroups [] o).2.2 m).1
    (subdiff (classifyGroups [] o).2.1 (classifyGroups (classifyGroups [] o).2.2 m).2.1) 0 true
  rw [hd, hi,
    (lens_subdiff (classifyGroups [] o).2.1 (classifyGroups (classifyGroups [] o).2.2 m).2.1).1,
    (lens_subdiff (classifyGroups [] o).2.1 (classifyGroups (classifyGroups [] o).2.2 m).2.1).2,
    classifyGroups_ids_length, classifyGroups_ids_length]
  simp [classifyGroups_flatten]

/-! ## Proper lines and marker insertion -/

theorem properLine_ne_nil {d : Str} (h : properLine d = true) : d ≠ [] := by
  intro he
  subst he
  simp [properLine] at h

theorem properLine_parts {c : Char} {rest : Str} (h : properLine (c :: rest) = true) :
    (rest = [] ∧ c = '\n') ∨ (rest ≠ [] ∧ c ≠ '\n' ∧ properLine rest = true) := by
  cases rest with
  | nil =>
    left
    refine ⟨rfl, ?_⟩
    have hb : (c == '\n') = true := by simpa [properLine] using h
    exact eq_of_beq hb
  | cons d t =>
    right
    have h' : (!(c == '\n') && properLine (d :: t)) = true := by
      simpa [properLine] using h
    rw [Bool.and_eq_true, Bool.not_eq_true'] at h'
    refine ⟨by simp, ?_, h'.2⟩
    intro hc
    subst hc
    simp at h'

theorem properLine_ends {d : Str} (h : properLine d = true) : endsWithNewline d = true := by
  induction d with
  | nil => simp [properLine] at h
  | cons c rest ih =>
    rcases properLine_parts h with ⟨hr, hc⟩ | ⟨hr, hc, hp⟩
    · subst hr; subst hc; decide
    · have hcw : endsWithNewline (c :: rest) = endsWithNewline rest := by
        cases rest with
        | nil => exact absurd rfl hr
        | cons d t => exact endsWithNewline_append [c] (by simp)
      rw [hcw]
      exact ih hp

theorem markText_false_properLine (m : Str) {d : Str} (h : properLine d = true) :
    markText m false d = d := by
  induction d with
  | nil => rfl
  | cons c rest ih =>
    rcases properLine_parts h with ⟨hr, hc⟩ | ⟨hr, hc, hp⟩
    · subst hr; subst hc; rfl
    · have hcb : (c == '\n') = false := by rw [beq_newline]; simp [hc]
      rw [markText, hcb]
      simp [ih hp]

theorem markText_true_properLine (m : Str) {d : Str} (h : properLine d = true) :
    markText m true d = m ++ d := by
  cases d with
  | nil => simp [properLine] at h
  | cons c rest =>
    rw [markText]
    rcases properLine_parts h with ⟨hr, hc⟩ | ⟨hr, hc, hp⟩
    · subst hr; subst hc; simp [markText]
    · have hcb : (c == '\n') = false := by rw [beq_newline]; simp [hc]
      rw [hcb, markText_false_properLine m hp]
      simp

theorem signBlock_markText (sign : Char) (ds : List Str)
    (h : ∀ d ∈ ds, properLine d = true) :
    (ds.map fun d => sign :: d).flatten = markText [sign] true ds.flatten := by
  induction ds with
  | nil => rfl
  | cons d rest ih =>
    have hd := h d (by simp)
    have hrest : ∀ x ∈ rest, properLine x = true := fun x hx => h x (by simp [hx])
    rw [List.map_cons, List.flatten_cons, List.flatten_cons, markText_append,
      markText_true_properLine [sign] hd, armAfter_ne_nil (properLine_ne_nil hd) true,
      properLine_ends hd, ih hrest]
    simp

/-! ## Plain text of rendered change lines -/

theorem textOf_fmtLine_delete {d : Str} (h : properLine d = true) :
    textOf (fmtLine false (Line.delete d)) = '-' :: d := by
  have he := properLine_ends h
  simp [fmtLine, textOf, he]

theorem textOf_fmtLine_insert {d : Str} (h : properLine d = true) :
    textOf (fmtLine false (Line.insert d)) = '+' :: d := by
  have he := properLine_ends h
  simp [fmtLine, textOf, he]

theorem textOf_flatten_map {α : Type} (f : α → List Chunk) (L : List α) :
    textOf ((L.map f).flatten) = (L.map fun x => textOf (f x)).flatten := by
  induction L with
  | nil => rfl
  | cons x rest ih =>
    rw [List.map_cons, List.flatten_cons, textOf_append, ih, List.map_cons, List.flatten_cons]

theorem renderLinesPlain_append (xs ys : List Line) :
    renderLinesPlain (xs ++ ys) = renderLinesPlain xs ++ renderLinesPlain ys := by
  simp [renderLinesPlain]

/-- The plain text of the plain rendition of a Delete-run of proper lines. -/
theorem renderLinesPlain_delBlock (ds : List Str) (h : ∀ d ∈ ds, properLine d = true) :
    textOf (renderLinesPlain (ds.map Line.delete)) = markText ['-'] true ds.flatten := by
  rw [renderLinesPlain, List.map_map, textOf_flatten_map]
  have hmap : (ds.map fun d => textOf ((fmtLine false ∘ Line.delete) d)) =
      ds.map fun d => '-' :: d := by
    apply List.map_congr_left
    intro d hd
    exact textOf_fmtLine_delete (h d hd)
  rw [hmap, signBlock_markText '-' ds h]

/-- The plain text of the plain rendition of an Insert-run of proper lines. -/
theorem renderLinesPlain_insBlock (ds : List Str) (h : ∀ d ∈ ds, properLine d = true) :
    textOf (renderLinesPlain (ds.map Line.insert)) = markText ['+'] true ds.flatten := by
  rw [renderLinesPlain, List.map_map, textOf_flatten_map]
  have hmap : (ds.map fun d => textOf ((fmtLine false ∘ Line.insert) d)) =
      ds.map fun d => '+' :: d := by
    apply List.map_congr_left
    intro d hd
    exact textOf_fmtLine_insert (h d hd)
  rw [hmap, signBlock_markText '+' ds h]

/-! ## Stepping the colored line loop through blocks of lines -/

theorem renderHunkLines_skip (lines₁ : List Line) :
    (∀ s, Line.context s ∉ lines₁) →
    ∀ (more : List Line) (origs mods : List Str),
      renderHunkLines true (lines₁ ++ more) false origs mods =
        renderHunkLines true more false origs mods := by
  induction lines₁ with
  | nil => intro _ more origs mods; rfl
  | cons ln rest ih =>
    intro h more origs mods
    cases ln with
    | context s => exact absurd (List.mem_cons_self _ _) (h s)
    | delete s => exact ih (fun s' hm => h s' (List.mem_cons_of_mem _ hm)) more origs mods
    | insert s => exact ih (fun s' hm => h s' (List.mem_cons_of_mem _ hm)) more origs mods

theorem renderHunkLines_ctx_block (ls : List Str) :
    ∀ (isCtx : Bool) (more : List Line) (origs mods : List Str),
      renderHunkLines true (ls.map Line.context ++ more) isCtx origs mods =
        Except.map
          (fun cs => (ls.map fun s => fmtLine true (Line.context s)).flatten ++ cs)
          (renderHunkLines true more (if ls.isEmpty then isCtx else true) origs mods) := by
  induction ls with
  | nil =>
    intro isCtx more origs mods
    cases hr : renderHunkLines true more isCtx origs mods <;> simp [Except.map, hr]
  | cons s ls' ih =>
    intro isCtx more origs mods
    have h1 : renderHunkLines true ((s :: ls').map Line.context ++ more) isCtx origs mods =
        Except.map (fun cs => fmtLine true (Line.context s) ++ cs)
          (renderHunkLines true (ls'.map Line.context ++ more) true origs mods) := rfl
    rw [h1, ih true more origs mods]
    have h2 : (if ls'.isEmpty then (true : Bool) else true) = true := by
      cases hls : ls'.isEmpty <;> simp
    have h3 : (if (s :: ls').isEmpty then isCtx else true) = true := by simp
    rw [h2, h3]
    cases hr : renderHunkLines true more true origs mods <;> simp [Except.map, hr]

/-! ## Well-formed segment lists -/

theorem segsWF_tail {s : Seg} {rest : List Seg} (h : segsWF (s :: rest) = true) :
    segOk s = true ∧ segsWF rest = true ∧
      (∀ d i, s = Seg.rep d i → repHead rest = false) := by
  cases rest with
  | nil =>
    refine ⟨h, rfl, ?_⟩
    intro d i _
    rfl
  | cons s' rest' =>
    cases s with
    | ctx ls =>
      cases s' with
      | ctx ls' =>
        have h' : (segOk (Seg.ctx ls) && true && segsWF (Seg.ctx ls' :: rest')) = true := h
        rw [Bool.and_eq_true, Bool.and_eq_true] at h'
        exact ⟨h'.1.1, h'.2, fun d i hdi => Seg.noConfusion hdi⟩
      | rep ds' is' =>
        have h' : (segOk (Seg.ctx ls) && true && segsWF (Seg.rep ds' is' :: rest')) = true := h
        rw [Bool.and_eq_true, Bool.and_eq_true] at h'
        exact ⟨h'.1.1, h'.2, fun d i hdi => Seg.noConfusion hdi⟩
    | rep ds is =>
      cases s' with
      | ctx ls' =>
        have h' : (segOk (Seg.rep ds is) && true && segsWF (Seg.ctx ls' :: rest')) = true := h
        rw [Bool.and_eq_true, Bool.and_eq_true] at h'
        exact ⟨h'.1.1, h'.2, fun d i _ => rfl⟩
      | rep ds' is' =>
        have h' : (segOk (Seg.rep ds is) && false && segsWF (Seg.rep ds' is' :: rest')) = true :=
          h
        simp at h'

theorem segOk_rep {ds is : List Str} (h : segOk (Seg.rep ds is) = true) :
    ds ≠ [] ∧ is ≠ [] ∧ (∀ d ∈ ds, properLine d = true) ∧
      (∀ d ∈ is, properLine d = true) := by
  have h' : (!ds.isEmpty && !is.isEmpty && (ds ++ is).all properLine) = true := h
  rw [Bool.and_eq_true, Bool.and_eq_true] at h'
  obtain ⟨⟨h1, h2⟩, h3⟩ := h'
  rw [Bool.not_eq_true', List.isEmpty_eq_false] at h1 h2
  rw [List.all_eq_true] at h3
  exact ⟨h1, h2, fun d hd => h3 d (List.mem_append_left _ hd),
    fun d hd => h3 d (List.mem_append_right _ hd)⟩

theorem segsLines_cons (s : Seg) (rest : List Seg) :
    segsLines (s :: rest) = segLines s ++ segsLines rest := by
  simp [segsLines]

theorem segsOrigs_ctx (ls : List Str) (rest : List Seg) :
    segsOrigs (Seg.ctx ls :: rest) = segsOrigs rest := by
  simp [segsOrigs]

theorem segsMods_ctx (ls : List Str) (rest : List Seg) :
    segsMods (Seg.ctx ls :: rest) = segsMods rest := by
  simp [segsMods]

theorem segsOrigs_rep (ds is : List Str) (rest : List Seg) :
    segsOrigs (Seg.rep ds is :: rest) = ds.flatten :: segsOrigs rest := by
  simp [segsOrigs]

theorem segsMods_rep (ds is : List Str) (rest : List Seg) :
    segsMods (Seg.rep ds is :: rest) = is.flatten :: segsMods rest := by
  simp [segsMods]

/-! ## Colored rendering of a well-formed segment list agrees with plain -/

theorem renderHunkLines_segs (segs : List Seg) :
    segsWF segs = true →
    ∀ isCtx : Bool, (repHead segs = true → isCtx = true) →
      ∃ cs, renderHunkLines true (segsLines segs) isCtx (segsOrigs segs) (segsMods segs) =
          .ok cs ∧
        textOf cs = textOf (renderLinesPlain (segsLines segs)) := by
  induction segs with
  | nil =>
    intro _ isCtx _
    exact ⟨[], rfl, rfl⟩
  | cons s rest ih =>
    intro hwf isCtx hentry
    obtain ⟨hok, hwfrest, hadj⟩ := segsWF_tail hwf
    cases s with
    | ctx ls =>
      have hlsne : ls ≠ [] := by
        have : (!ls.isEmpty) = true := hok
        rw [Bool.not_eq_true', List.isEmpty_eq_false] at this
        exact this
      have hempty : ls.isEmpty = false := by
        rw [List.isEmpty_eq_false]
        exact hlsne
      obtain ⟨cs, hcs, htx⟩ := ih hwfrest true (fun _ => rfl)
      refine ⟨(ls.map fun s => fmtLine true (Line.context s)).flatten ++ cs, ?_, ?_⟩
      · rw [segsLines_cons, segsOrigs_ctx, segsMods_ctx]
        show renderHunkLines true (ls.map Line.context ++ segsLines rest) isCtx
          (segsOrigs rest) (segsMods rest) = _
        rw [renderHunkLines_ctx_block, hempty]
        simp only [Bool.false_eq_true, if_neg, if_false]
        rw [hcs]
        rfl
      · rw [textOf_append, htx, segsLines_cons]
        show _ = textOf (renderLinesPlain (ls.map Line.context ++ segsLines rest))
        rw [renderLinesPlain_append, textOf_append]
        congr 1
        rw [renderLinesPlain, List.map_map, textOf_flatten_map, textOf_flatten_map]
        apply congrArg
        apply List.map_congr_left
        intro x _
        exact textOf_fmtLine_wc true (Line.context x)
    | rep ds is =>
      have hCtx : isCtx = true := hentry rfl
      subst hCtx
      obtain ⟨hds, his, hdp, hip⟩ := segOk_rep hok
      obtain ⟨d₀, ds', rfl⟩ : ∃ d₀ ds', ds = d₀ :: ds' := by
        cases ds with
        | nil => exact absurd rfl hds
        | cons a b => exact ⟨a, b, rfl⟩
      have hrestrep : repHead rest = false := hadj _ _ rfl
      obtain ⟨cs, hcs, htx⟩ := ih hwfrest false
        (fun hrep => absurd hrep (by rw [hrestrep]; simp))
      have hskip := renderHunkLines_skip (ds'.map Line.delete ++ is.map Line.insert)
        (by
          intro s hs
          rw [List.mem_append] at hs
          rcases hs with hs | hs <;> (rw [List.mem_map] at hs; obtain ⟨x, _, hx⟩ := hs) <;>
            exact Line.noConfusion hx)
        (segsLines rest) (segsOrigs rest) (segsMods rest)
      have hstep : renderHunkLines true (segsLines (Seg.rep (d₀ :: ds') is :: rest)) true
          (segsOrigs (Seg.rep (d₀ :: ds') is :: rest))
          (segsMods (Seg.rep (d₀ :: ds') is :: rest)) =
          Except.map (fun cs => renderSub ((d₀ :: ds').flatten) is.flatten ++ cs)
            (renderHunkLines true ((ds'.map Line.delete ++ is.map Line.insert) ++ segsLines rest)
              false (segsOrigs rest) (segsMods rest)) := rfl
      refine ⟨renderSub ((d₀ :: ds').flatten) is.flatten ++ cs, ?_, ?_⟩
      · rw [hstep, hskip, hcs]
        rfl
      · rw [textOf_append, htx, renderSub_text, segsLines_cons]
        show _ = textOf (renderLinesPlain
          (((d₀ :: ds').map Line.delete ++ is.map Line.insert) ++ segsLines rest))
        rw [renderLinesPlain_append, renderLinesPlain_append, textOf_append, textOf_append,
          renderLinesPlain_delBlock (d₀ :: ds') hdp, renderLinesPlain_insBlock is hip]

/-! ## Hunk and patch level -/

theorem renderHunk_shape (hs : HunkShape) (hwf : segsWF hs.segs = true) :
    ∃ cs, renderHunk true (shapeHunk hs) = .ok cs ∧
      textOf cs = textOf (renderHunkPlain (shapeHunk hs)) := by
  obtain ⟨cs, hcs, htx⟩ := renderHunkLines_segs hs.segs hwf true (fun _ => rfl)
  refine ⟨fmtHunkHeader true (shapeHunk hs) ++ cs, ?_, ?_⟩
  · rw [renderHunk]
    show Except.map _ (renderHunkLines true (segsLines hs.segs) true
      (segsOrigs hs.segs) (segsMods hs.segs)) = _
    rw [hcs]
    rfl
  · rw [renderHunkPlain, textOf_append, textOf_append, htx,
      textOf_fmtHunkHeader_wc true (shapeHunk hs)]
    rfl

theorem renderHunks_shape (hss : List HunkShape)
    (hwf : ∀ hs ∈ hss, segsWF hs.segs = true) :
    ∃ cs, renderHunks true (hss.map shapeHunk) = .ok cs ∧
      textOf cs = textOf (((hss.map shapeHunk).map renderHunkPlain).flatten) := by
  induction hss with
  | nil => exact ⟨[], rfl, rfl⟩
  | cons h rest ih =>
    obtain ⟨cs₁, hcs₁, htx₁⟩ := renderHunk_shape h (hwf h (by simp))
    obtain ⟨cs₂, hcs₂, htx₂⟩ := ih (fun x hx => hwf x (by simp [hx]))
    refine ⟨cs₁ ++ cs₂, ?_, ?_⟩
    · show (match renderHunk true (shapeHunk h) with
        | Except.error e => Except.error e
        | Except.ok cs => Except.map (fun cs' => cs ++ cs') (renderHunks true (rest.map shapeHunk))) = _
      rw [hcs₁, hcs₂]
      rfl
    · rw [textOf_append, htx₁, htx₂, List.map_cons, List.map_cons, List.flatten_cons,
        textOf_append]

/-! ## Claim C4 -/

/-- C4 (amended): for patches whose hunks decompose into well-formed segments
— context runs and pure replace blocks (a nonempty Delete-run immediately
followed by a nonempty Insert-run, all change lines newline-terminated), with
`originals`/`modifieds` capturing exactly those run blocks and no two replace
blocks adjacent — rendering with color enabled succeeds and, after stripping
all terminal escape markers, yields exactly the plain (color-disabled)
rendition.  (The claim's unrestricted universal is refuted by the
counterexample: a change line without a trailing newline loses its no-newline
marker in the colored rendition.) -/
theorem color_strip_agrees (orig mod : Option Str) (hss : List HunkShape)
    (hwf : ∀ hs ∈ hss, segsWF hs.segs = true) :
    ∃ cs, renderPatch true ⟨orig, mod, hss.map shapeHunk⟩ = .ok cs ∧
      textOf cs = textOf (renderPatchPlain ⟨orig, mod, hss.map shapeHunk⟩) := by
  obtain ⟨cs, hcs, htx⟩ := renderHunks_shape hss hwf
  refine ⟨(if (orig.isSome || mod.isSome) then
      [Chunk.pre StyleTag.patchHeader]
        ++ (match orig with
            | some o => [Chunk.text ("--- ".data ++ o ++ ['\n'])]
            | none => [])
        ++ (match mod with
            | some m => [Chunk.text ("+++ ".data ++ m ++ ['\n'])]
            | none => [])
        ++ [Chunk.suf StyleTag.patchHeader]
    else []) ++ cs, ?_, ?_⟩
  · rw [renderPatch]
    show Except.map _ (renderHunks true (hss.map shapeHunk)) = _
    rw [hcs]
    rfl
  · rw [textOf_append, htx, renderPatchPlain, textOf_append]
    congr 1
    cases orig <;> cases mod <;> simp [textOf]

/-- Witness for C4 (amended) at a concrete patch: one replace-block hunk. -/
theorem color_strip_agrees_witness :
    ∃ cs, renderPatch true ⟨none, none,
        [HunkShape.mk ⟨1, 1⟩ ⟨1, 1⟩ none
          [Seg.rep ["a\n".data] ["b\n".data]]].map shapeHunk⟩ = .ok cs ∧
      textOf cs = textOf (renderPatchPlain ⟨none, none,
        [HunkShape.mk ⟨1, 1⟩ ⟨1, 1⟩ none
          [Seg.rep ["a\n".data] ["b\n".data]]].map shapeHunk⟩) :=
  color_strip_agrees none none
    [HunkShape.mk ⟨1, 1⟩ ⟨1, 1⟩ none [Seg.rep ["a\n".data] ["b\n".data]]]
    (by decide)

/-- Counterexample for C4 as stated: an Insert line without a trailing
newline.  The colored rendition succeeds but, stripped, lacks the
`\ No newline at end of file` marker line the plain rendition carries. -/
theorem color_strip_missing_marker :
    ((Except.map textOf (renderPatch true ⟨none, none,
        [shapeHunk (HunkShape.mk ⟨1, 1⟩ ⟨1, 1⟩ none
          [Seg.rep ["a\n".data] ["b".data]])]⟩)).toOption).isSome = true ∧
    (Except.map textOf (renderPatch true ⟨none, none,
        [shapeHunk (HunkShape.mk ⟨1, 1⟩ ⟨1, 1⟩ none
          [Seg.rep ["a\n".data] ["b".data]])]⟩)).toOption ≠
    (Except.map textOf (renderPatch false ⟨none, none,
        [shapeHunk (HunkShape.mk ⟨1, 1⟩ ⟨1, 1⟩ none
          [Seg.rep ["a\n".data] ["b".data]])]⟩)).toOption := by
  constructor <;> decide

end Diffy
